import Mathlib

/-!
Verification of the CHarm codon-harmonization core.

The definitions below are a shallow embedding of `LibCharm/Sequence/__init__.py`
(class `Sequence`) together with the admission filter of the older
`libcharm.py` (`LibCHarm.Sequence.compute_replacement_table`).  Python strings
are modelled as `List Char`, Python floats as `ℚ`, the nested usage-table
dictionaries as association lists in insertion order, raised exceptions as
`Outcome.err` (or `none` where the whole run crashes), and the unbounded
recursion of `translate_sequence` with an explicit fuel parameter where `none`
marks non-termination.  Biopython's `Seq.translate` and the remotely fetched
codon-usage tables are external collaborators and are modelled from their
interface (a codon-to-amino-acid mapping, and per-amino-acid usage rows).
-/

namespace Charm

/-- Exceptions that the embedded code can raise.  `valueError` models the
`ValueError` of `Sequence.__init__`, `translationError` the Biopython
`TranslationError` escaping `split_original_sequence_to_codons`,
`lookupError` a `KeyError`/`IndexError` during harmonization, and
`typeError` the `TypeError` of joining a `None` codon. -/
inductive Err where
  | valueError
  | translationError
  | lookupError
  | typeError
deriving DecidableEq

/-- Result of a call that can raise: either a raised exception or a value. -/
inductive Outcome (α : Type) where
  | err : Err → Outcome α
  | ok : α → Outcome α
deriving DecidableEq

/-- A codon (or partial trailing chunk) of the nucleotide string. -/
abbrev Codon := List Char

/-- An amino-acid dictionary key: a one-letter code, or `[]` for the empty
translation of a partial codon. -/
abbrev AminoKey := List Char

/-- External genetic-code table: maps a complete codon to its amino acid,
`none` when Biopython would raise a `TranslationError` for it. -/
structure TransTable where
  toAA : List Char → Option Char

/-- One row of a codon-usage table: the codons of one amino acid with their
usage values, in dictionary insertion order. -/
abbrev UsageRow := List (Codon × ℚ)

/-- A codon-usage table (`CodonUsageTable.usage_table`): amino-acid key to
row, in dictionary insertion order. -/
abbrev UsageTable := List (AminoKey × UsageRow)

/-- Dictionary lookup `usage_table[aa]`; `none` models a `KeyError`. -/
def lookupRow (u : UsageTable) (aa : AminoKey) : Option UsageRow :=
  (u.find? (fun p => p.1 == aa)).map (fun p => p.2)

/-- Dictionary lookup `usage_table[aa][codon]['f']`; `none` models a
`KeyError`. -/
def lookupF (row : UsageRow) (c : Codon) : Option ℚ :=
  (row.find? (fun p => p.1 == c)).map (fun p => p.2)

/-- One entry of `Sequence.codons` (the per-codon dictionaries built by
`split_original_sequence_to_codons`). -/
@[ext]
structure CodonRecord where
  position : Nat
  original : Codon
  new : Option Codon
  origin_f : Option ℚ
  target_f : Option ℚ
  initial_df : Option ℚ
  final_df : Option ℚ
  aa : AminoKey
deriving DecidableEq

/-- The policy attributes stored on `Sequence` by `__init__`. -/
structure Config where
  lower_threshold : ℚ
  strong_stop : Bool
  lower_alternative : Bool
  use_replacement_table : Bool
deriving DecidableEq

/-- The five fields that `sort_replacement_codons` writes into a codon
dictionary when it resolves it. -/
structure Resolved where
  origin_f : ℚ
  target_f : ℚ
  initial_df : ℚ
  final_df : ℚ
  new : Codon
deriving DecidableEq

/-- Python's `abs` on usage values. -/
def absQ (q : ℚ) : ℚ := if q < 0 then -q else q

/-- `Sequence.chunks(string, 3)`: successive slices `string[start:start+3]`,
including a short trailing slice when the length is not a multiple
of three. -/
def chunks3 : List Char → List (List Char)
  | [] => []
  | [a] => [[a]]
  | [a, b] => [[a, b]]
  | a :: b :: c :: rest => [a, b, c] :: chunks3 rest

/-- The loop body of `split_original_sequence_to_codons`: position counter,
codon chunk, and the per-codon translation `codon.translate(table)`.  A
complete chunk missing from the table raises (Biopython `TranslationError`,
uncaught there); a short trailing chunk translates to the empty string. -/
def mkRecords (tbl : TransTable) : Nat → List (List Char) → Outcome (List CodonRecord)
  | _, [] => .ok []
  | p, c :: rest =>
    let aaO : Outcome AminoKey :=
      if c.length = 3 then
        match tbl.toAA c with
        | some a => .ok [a]
        | none => .err .translationError
      else .ok []
    match aaO with
    | .err e => .err e
    | .ok aaK =>
      match mkRecords tbl (p + 1) rest with
      | .err e => .err e
      | .ok rs => .ok ({ position := p + 1, original := c, new := none, origin_f := none,
                         target_f := none, initial_df := none, final_df := none,
                         aa := aaK } :: rs)

/-- `Sequence.split_original_sequence_to_codons`. -/
def splitToCodons (tbl : TransTable) (s : List Char) : Outcome (List CodonRecord) :=
  mkRecords tbl 0 (chunks3 s)

/-- A candidate tuple `(item, df_new, f_target_new)` as appended to
`codon_substitutions` / `stop_codons` in `sort_replacement_codons`. -/
abbrev Cand := Codon × ℚ × ℚ

/-- The body of the `for item in self.usage_host.usage_table[aa]` loop of
`sort_replacement_codons` (lines 166-184).  Note that the source's inner
test reads `if df_new < df: add = True` followed by `else:# target_f == 0:
add = True`, so `add` is `True` on both branches. -/
def scanStep (cfg : Config) (aa : AminoKey) (origin_f df : ℚ)
    (acc : List Cand × List Cand) (p : Codon × ℚ) : List Cand × List Cand :=
  let item := p.1
  let f_target_new := p.2
  let df_new := absQ (origin_f - f_target_new)
  if aa = ['*'] ∧ cfg.strong_stop = true then
    (acc.1, acc.2 ++ [(item, df_new, f_target_new)])
  else
    if f_target_new < cfg.lower_threshold ∧ cfg.lower_threshold < origin_f then
      acc
    else
      let add := if df_new < df then true else true
      if add then (acc.1 ++ [(item, df_new, f_target_new)], acc.2) else acc

/-- The whole candidate-collection loop of `sort_replacement_codons`:
returns `(codon_substitutions, stop_codons)`. -/
def scanRow (cfg : Config) (aa : AminoKey) (origin_f df : ℚ) (row : UsageRow) :
    List Cand × List Cand :=
  row.foldl (scanStep cfg aa origin_f df) ([], [])

/-- The comparison used by `sorted(codon_substitutions, key=itemgetter(1, 2))`:
lexicographic order on `(df_new, f_target_new)`.  Python's `sorted` is a
stable ascending sort, which `List.insertionSort` with this total preorder
reproduces. -/
def candLe (a b : Cand) : Prop :=
  a.2.1 < b.2.1 ∨ (a.2.1 = b.2.1 ∧ a.2.2 ≤ b.2.2)

instance : DecidableRel candLe := fun a b => by
  unfold candLe; infer_instance

instance : IsTotal Cand candLe := by
  constructor
  intro a b
  rcases lt_trichotomy a.2.1 b.2.1 with h | h | h
  · exact Or.inl (Or.inl h)
  · rcases le_total a.2.2 b.2.2 with h2 | h2
    · exact Or.inl (Or.inr ⟨h, h2⟩)
    · exact Or.inr (Or.inr ⟨h.symm, h2⟩)
  · exact Or.inr (Or.inl h)

instance : IsTrans Cand candLe := by
  constructor
  intro a b c hab hbc
  rcases hab with h1 | ⟨h1, h1'⟩ <;> rcases hbc with h2 | ⟨h2, h2'⟩
  · exact Or.inl (h1.trans h2)
  · exact Or.inl (h2 ▸ h1)
  · exact Or.inl (h1 ▸ h2)
  · exact Or.inr ⟨h1.trans h2, h1'.trans h2'⟩

/-- The comparison used by `sorted(stop_codons, key=itemgetter(2))`:
ascending on `f_target_new`. -/
def stopLe (a b : Cand) : Prop := a.2.2 ≤ b.2.2

instance : DecidableRel stopLe := fun a b => by
  unfold stopLe; infer_instance

instance : IsTotal Cand stopLe := ⟨fun a b => le_total a.2.2 b.2.2⟩

instance : IsTrans Cand stopLe := ⟨fun _ _ _ h1 h2 => le_trans h1 h2⟩

/-- The selection part of the `sort_replacement_codons` body (lines 163-216),
after the four usage-table lookups have succeeded: collect the candidate
and stop lists, then choose the substitution exactly as the source does.
`none` models the uncaught `IndexError` of `sorted_stop_codons[-1]` on an
empty list. -/
def resolveSel (cfg : Config) (aa : AminoKey) (orig : Codon) (origin_f target_f : ℚ)
    (rowH : UsageRow) : Option Resolved :=
  let df := absQ (origin_f - target_f)
  let scanned := scanRow cfg aa origin_f df rowH
  let subs := scanned.1
  let stops := scanned.2
  if subs ≠ [] then
    let sorted := subs.insertionSort candLe
    let bump : Bool :=
      if 2 ≤ subs.length then
        if (sorted.getD 0 default).2.1 = (sorted.getD 1 default).2.1 ∧
            ¬((sorted.getD 0 default).2.2 = (sorted.getD 1 default).2.2) then
          if cfg.lower_alternative = false ∧ 1 < sorted.length then true else false
        else false
      else false
    let chosen := sorted.getD (if bump then 1 else 0) default
    some { origin_f := origin_f, target_f := chosen.2.2, initial_df := df,
           final_df := chosen.2.1, new := chosen.1 }
  else
    if aa = ['*'] ∧ cfg.strong_stop = true then
      match (stops.insertionSort stopLe).getLast? with
      | none => none
      | some chosen =>
        some { origin_f := origin_f, target_f := chosen.2.2, initial_df := df,
               final_df := chosen.2.1, new := chosen.1 }
    else
      some { origin_f := origin_f, target_f := target_f, initial_df := df,
             final_df := df, new := orig }

/-- The per-codon body of `sort_replacement_codons` (lines 149-216), as a
function of the amino acid and original triplet of the codon dictionary.
`none` models an uncaught `KeyError` (usage-table lookup) or `IndexError`
(`sorted_stop_codons[-1]` on an empty list). -/
def resolveCore (cfg : Config) (uo uh : UsageTable) (aa : AminoKey) (orig : Codon) :
    Option Resolved :=
  match lookupRow uo aa with
  | none => none
  | some rowO =>
    match lookupRow uh aa with
    | none => none
    | some rowH =>
      match lookupF rowO orig with
      | none => none
      | some origin_f =>
        match lookupF rowH orig with
        | none => none
        | some target_f => resolveSel cfg aa orig origin_f target_f rowH

/-- Writing the five resolved fields back into the codon dictionary. -/
def applyResolved (r : CodonRecord) (f : Resolved) : CodonRecord :=
  { r with origin_f := some f.origin_f, target_f := some f.target_f,
           initial_df := some f.initial_df, final_df := some f.final_df,
           new := some f.new }

/-- Resolution of one codon dictionary by `sort_replacement_codons`. -/
def resolveRecord (cfg : Config) (uo uh : UsageTable) (r : CodonRecord) :
    Option CodonRecord :=
  (resolveCore cfg uo uh r.aa r.original).map (applyResolved r)

/-- Sequencing of fallible per-element computations, modelling a Python loop
whose body can raise: the first failure aborts the whole run. -/
def traverseOpt (f : α → Option β) : List α → Option (List β)
  | [] => some []
  | x :: xs =>
    match f x with
    | none => none
    | some y => (traverseOpt f xs).map (fun ys => y :: ys)

/-- `Sequence.sort_replacement_codons` applied to a whole codon list. -/
def sortReplacementCodons (cfg : Config) (uo uh : UsageTable)
    (codons : List CodonRecord) : Option (List CodonRecord) :=
  traverseOpt (resolveRecord cfg uo uh) codons

/-- The deduplication loop of `Sequence.compute_replacement_table`: keeps the
first codon dictionary of each distinct `original` triplet, in first
occurrence order (the `len == 0` special case of the source coincides with
the general branch). -/
def uniqueByOriginal : List CodonRecord → List Codon → List CodonRecord
  | [], _ => []
  | r :: rs, seen =>
    if r.original ∈ seen then uniqueByOriginal rs seen
    else r :: uniqueByOriginal rs (seen ++ [r.original])

/-- `Sequence.compute_replacement_table`. -/
def computeReplacementTable (cfg : Config) (uo uh : UsageTable)
    (codons : List CodonRecord) : Option (List CodonRecord) :=
  sortReplacementCodons cfg uo uh (uniqueByOriginal codons [])

/-- The copying loop of `Sequence.harmonize_codons`: find the replacement-table
entry with the same `original` triplet and copy every field except
`position` from it (entries have distinct `original`s, so the first match
is the only one). -/
def copyFromTable (table : List CodonRecord) (r : CodonRecord) : CodonRecord :=
  match table.find? (fun u => u.original == r.original) with
  | none => r
  | some u => { u with position := r.position }

/-- `Sequence.harmonize_codons`. -/
def harmonizeCodons (cfg : Config) (uo uh : UsageTable)
    (codons : List CodonRecord) : Option (List CodonRecord) :=
  if cfg.use_replacement_table = true then
    match computeReplacementTable cfg uo uh codons with
    | none => none
    | some table => some (codons.map (copyFromTable table))
  else
    sortReplacementCodons cfg uo uh codons

/-- `Sequence.construct_new_sequence`: join the `new` codons in list order.
A still-unresolved `None` entry would make `''.join` raise a `TypeError`. -/
def constructNewSequence (codons : List CodonRecord) : Outcome (List Char) :=
  match traverseOpt (fun r => r.new) codons with
  | none => .err .typeError
  | some l => .ok l.flatten

/-- Modelled external collaborator, pointwise part of `Bio.Seq.translate`:
translate every complete chunk, raise on a chunk that the genetic code
cannot resolve, skip a short trailing chunk (Biopython only warns on a
partial codon). -/
def rawTranslate (tbl : TransTable) : List (List Char) → Option (List Char)
  | [] => some []
  | c :: rest =>
    if c.length = 3 then
      match tbl.toAA c with
      | none => none
      | some a => (rawTranslate tbl rest).map (fun as => a :: as)
    else rawTranslate tbl rest

/-- Modelled external collaborator `Bio.Seq.translate(table, cds, to_stop)`:
with `to_stop` the translation stops before the first stop symbol; with
`cds` the sequence must translate to a string with exactly one stop symbol,
at its end, which is removed; `none` models a raised `TranslationError`. -/
def bioTranslate (tbl : TransTable) (s : List Char) (cds to_stop : Bool) :
    Option (List Char) :=
  match rawTranslate tbl (chunks3 s) with
  | none => none
  | some aas =>
    if to_stop = true then some (aas.takeWhile (fun a => a ≠ '*'))
    else
      if cds = true then
        match aas.getLast? with
        | some '*' => if '*' ∈ aas.dropLast then none else some aas.dropLast
        | _ => none
      else some aas

/-- `Sequence.translate_sequence`, over an abstract translation attempt
`attempt cds to_stop` (instantiated with `bioTranslate` on a fixed sequence
and table).  On a `TranslationError` the source calls itself again with
`cds=False, to_stop=True`; the fuel parameter makes that recursion
well-founded in the embedding, with `none` marking non-termination.  The
separate `except KeyError: exit(1)` handler of the source is not reachable
in this model of the attempt. -/
def translateSequence (attempt : Bool → Bool → Option (List Char)) :
    Nat → Bool → Bool → Option (List Char)
  | 0, _, _ => none
  | fuel + 1, cds, to_stop =>
    match attempt cds to_stop with
    | some r => some r
    | none => translateSequence attempt fuel false true

/-- Number of translation attempts that `translate_sequence` performs (capped
by the fuel): instrumentation of `translateSequence` for counting how often
the `TranslationError` recovery fires. -/
def translateAttempts (attempt : Bool → Bool → Option (List Char)) :
    Nat → Bool → Bool → Nat
  | 0, _, _ => 0
  | fuel + 1, cds, to_stop =>
    match attempt cds to_stop with
    | some _ => 1
    | none => 1 + translateAttempts attempt fuel false true

/-- The constructor arguments of `Sequence.__init__` that the embedding
tracks. -/
structure InitArgs where
  translation_table_origin : Nat
  translation_table_host : Nat
  use_frequency : Bool
  lower_threshold : Option ℚ
  strong_stop : Bool
  lower_alternative : Bool
  use_replacement_table : Bool

/-- The threshold-defaulting logic of `__init__` (lines 27-35); Python's
`if not lower_threshold` is true for `None` and for `0`. -/
def defaultThreshold (use_frequency : Bool) (lt : Option ℚ) : ℚ :=
  if lt = none ∨ lt = some 0 then (if use_frequency = true then 5 else 1 / 10)
  else lt.getD 0

/-- The state a fully constructed `Sequence` object holds. -/
structure SeqState where
  codons : List CodonRecord
  original_translated : List Char
  harmonized_sequence : List Char
  harmonized_translated : List Char
deriving DecidableEq

/-- The policy configuration that `__init__` stores on the object. -/
def mkCfg (a : InitArgs) : Config :=
  { lower_threshold := defaultThreshold a.use_frequency a.lower_threshold,
    strong_stop := a.strong_stop, lower_alternative := a.lower_alternative,
    use_replacement_table := a.use_replacement_table }

/-- `Sequence.__init__`: threshold defaulting, the translation-table guard,
translation of the original sequence, splitting, harmonization,
reconstruction, and translation of the harmonized sequence, in source
order.  The usage tables are the modelled external downloads.  `none`
models a run that does not terminate (the translation retry loop). -/
def runSequence (fuel : Nat) (a : InitArgs) (originT hostT : TransTable)
    (uo uh : UsageTable) (s : List Char) : Option (Outcome SeqState) :=
  let cfg : Config := mkCfg a
  if 15 < a.translation_table_origin ∨ 15 < a.translation_table_host then
    some (.err .valueError)
  else
    match translateSequence (fun c t => bioTranslate originT s c t) fuel true false with
    | none => none
    | some ot =>
      match splitToCodons originT s with
      | .err e => some (.err e)
      | .ok cs0 =>
        match harmonizeCodons cfg uo uh cs0 with
        | none => some (.err .lookupError)
        | some cs =>
          match constructNewSequence cs with
          | .err e => some (.err e)
          | .ok harm =>
            match translateSequence (fun c t => bioTranslate hostT harm c t) fuel true false with
            | none => none
            | some ht =>
              some (.ok { codons := cs, original_translated := ot,
                          harmonized_sequence := harm, harmonized_translated := ht })

/-- `Sequence.verify_harmonized_sequence`. -/
def verifyHarmonizedSequence (st : SeqState) : Bool :=
  st.original_translated == st.harmonized_translated

/-- The candidate-collection loop body of the older
`libcharm.py` `compute_replacement_table` (lines 215-234): candidates are
`(item, df_new)` pairs, the original codon is skipped, and the acceptance
test is `df_new < df`, `elif target_f == 0` (the host usage of the original
codon, not of the candidate). -/
def scanStepLib (strong_stop : Bool) (threshold origin_f target_f df : ℚ)
    (aa : AminoKey) (orig : Codon)
    (acc : List (Codon × ℚ) × List (Codon × ℚ × ℚ)) (p : Codon × ℚ) :
    List (Codon × ℚ) × List (Codon × ℚ × ℚ) :=
  let item := p.1
  let f_target_new := p.2
  let df_new := absQ (origin_f - f_target_new)
  if aa = ['*'] ∧ strong_stop = true then
    (acc.1, acc.2 ++ [(item, f_target_new, df_new)])
  else
    if item ≠ orig then
      if f_target_new < threshold ∧ threshold < origin_f then acc
      else
        if df_new < df then (acc.1 ++ [(item, df_new)], acc.2)
        else
          if target_f = 0 then (acc.1 ++ [(item, df_new)], acc.2)
          else acc
    else acc

/-- The whole candidate-collection loop of the older `libcharm.py`
`compute_replacement_table`, returning
`(codon_substitutions, stop_codons)`. -/
def scanRowLib (strong_stop : Bool) (threshold origin_f target_f df : ℚ)
    (aa : AminoKey) (orig : Codon) (row : UsageRow) :
    List (Codon × ℚ) × List (Codon × ℚ × ℚ) :=
  row.foldl (scanStepLib strong_stop threshold origin_f target_f df aa orig) ([], [])

/-- Derived closed form of the non-stop candidate list: the row entries that
survive the threshold filter, tagged with their usage difference. -/
def candsOf (threshold origin_f : ℚ) (row : UsageRow) : List Cand :=
  (row.filter (fun p => !(decide (p.2 < threshold ∧ threshold < origin_f)))).map
    (fun p => (p.1, absQ (origin_f - p.2), p.2))

/-- Derived closed form of the stop-codon list: every row entry tagged with
its usage difference. -/
def stopsOf (origin_f : ℚ) (row : UsageRow) : List Cand :=
  row.map (fun p => (p.1, absQ (origin_f - p.2), p.2))

/-- The host usage table is consistent with the host genetic code: every codon
listed under an amino-acid key translates to exactly that key. -/
def HostConsistent (t : TransTable) (u : UsageTable) : Prop :=
  ∀ p ∈ u, ∀ e ∈ p.2, (t.toAA e.1).map (fun a => [a]) = some p.1

/-- Every codon listed in the usage table is a proper triplet. -/
def Wf3 (u : UsageTable) : Prop :=
  ∀ p ∈ u, ∀ e ∈ p.2, e.1.length = 3

instance (t : TransTable) (u : UsageTable) : Decidable (HostConsistent t u) := by
  unfold HostConsistent
  infer_instance

instance (u : UsageTable) : Decidable (Wf3 u) := by
  unfold Wf3
  infer_instance

/-- A concrete fragment of the standard genetic code, for witness runs. -/
def stdT : TransTable :=
  ⟨fun c =>
    if c = ['A', 'T', 'G'] then some 'M'
    else if c = ['T', 'G', 'C'] then some 'C'
    else if c = ['T', 'A', 'A'] then some '*'
    else if c = ['T', 'G', 'A'] then some '*'
    else if c = ['C', 'T', 'G'] then some 'L'
    else if c = ['C', 'T', 'T'] then some 'L'
    else if c = ['C', 'T', 'C'] then some 'L'
    else if c = ['C', 'T', 'A'] then some 'L'
    else none⟩

/-- A concrete usage table consistent with `stdT`, for witness runs. -/
def uStd : UsageTable :=
  [(['M'], [(['A', 'T', 'G'], 1)]),
   (['C'], [(['T', 'G', 'C'], 1)]),
   (['*'], [(['T', 'A', 'A'], 1)])]

/-- Default constructor arguments for witness runs. -/
def argsStd : InitArgs :=
  { translation_table_origin := 1, translation_table_host := 1, use_frequency := false,
    lower_threshold := none, strong_stop := true, lower_alternative := true,
    use_replacement_table := true }

/-- The state that the witness run on `ATGTGCTAA` reaches. -/
def stStd : SeqState :=
  { codons :=
      [{ position := 1, original := ['A', 'T', 'G'], new := some ['A', 'T', 'G'],
         origin_f := some 1, target_f := some 1, initial_df := some 0, final_df := some 0,
         aa := ['M'] },
       { position := 2, original := ['T', 'G', 'C'], new := some ['T', 'G', 'C'],
         origin_f := some 1, target_f := some 1, initial_df := some 0, final_df := some 0,
         aa := ['C'] },
       { position := 3, original := ['T', 'A', 'A'], new := some ['T', 'A', 'A'],
         origin_f := some 1, target_f := some 1, initial_df := some 0, final_df := some 0,
         aa := ['*'] }],
    original_translated := ['M', 'C'],
    harmonized_sequence := ['A', 'T', 'G', 'T', 'G', 'C', 'T', 'A', 'A'],
    harmonized_translated := ['M', 'C'] }

/-- A translation attempt that always raises `TranslationError`. -/
def badAtt : Bool → Bool → Option (List Char) := fun _ _ => none

/-- A translation attempt that fails with `cds=True` but succeeds on the
retry configuration `cds=False, to_stop=True`. -/
def okAtt : Bool → Bool → Option (List Char) :=
  fun cds _ => if cds = true then none else some ['M']

instance : Inhabited Resolved := ⟨⟨0, 0, 0, 0, []⟩⟩

lemma traverseOpt_eq_some_map (f : α → Option β) (g : α → β) :
    ∀ l : List α, (∀ x ∈ l, f x = some (g x)) → traverseOpt f l = some (l.map g)
  | [], _ => rfl
  | x :: xs, h => by
    have hx := h x (List.mem_cons_self x xs)
    have ih := traverseOpt_eq_some_map f g xs (fun y hy => h y (List.mem_cons_of_mem x hy))
    simp [traverseOpt, hx, ih]

lemma traverseOpt_forall₂ (f : α → Option β) :
    ∀ {l : List α} {l' : List β}, traverseOpt f l = some l' →
      List.Forall₂ (fun x y => f x = some y) l l'
  | [], l', h => by
    simp [traverseOpt] at h
    simp [← h]
  | x :: xs, l', h => by
    simp only [traverseOpt] at h
    cases hx : f x with
    | none => rw [hx] at h; exact absurd h (by simp)
    | some y =>
      rw [hx] at h
      cases hxs : traverseOpt f xs with
      | none => rw [hxs] at h; exact absurd h (by simp)
      | some ys =>
        rw [hxs] at h
        have h' : y :: ys = l' := by simpa using h
        rw [← h']
        exact List.Forall₂.cons hx (traverseOpt_forall₂ f hxs)

lemma traverseOpt_none_of_mem (f : α → Option β) :
    ∀ {l : List α} {x : α}, x ∈ l → f x = none → traverseOpt f l = none := by
  intro l
  induction l with
  | nil => intro x hx; exact absurd hx (by simp)
  | cons a as ih =>
    intro x hx hfx
    rcases List.mem_cons.mp hx with h | h
    · subst h; simp [traverseOpt, hfx]
    · cases hfa : f a with
      | none => simp [traverseOpt, hfa]
      | some y => simp [traverseOpt, hfa, ih h hfx]

lemma forall₂_some_eq_map (f : α → Option β) (d : β) :
    ∀ {l : List α} {l' : List β}, List.Forall₂ (fun x y => f x = some y) l l' →
      l' = l.map (fun x => (f x).getD d) := by
  intro l l' h
  induction h with
  | nil => rfl
  | cons hx _ ih => simp [ih, hx]

lemma flatten_length_of_len3 :
    ∀ {L : List (List Char)}, (∀ x ∈ L, x.length = 3) → L.flatten.length = 3 * L.length := by
  intro L
  induction L with
  | nil => intro _; rfl
  | cons x xs ih =>
    intro h
    have hx := h x (List.mem_cons_self x xs)
    have := ih (fun y hy => h y (List.mem_cons_of_mem x hy))
    simp [List.flatten, hx, this, Nat.mul_succ, Nat.mul_add]
    ring

lemma rel_getLast_of_sorted {r : Cand → Cand → Prop} (hrefl : ∀ a, r a a) :
    ∀ {l : List Cand}, List.Sorted r l → ∀ (hne : l ≠ []) (x : Cand),
      x ∈ l → r x (l.getLast hne) := by
  intro l
  induction l with
  | nil => intro _ hne; exact absurd rfl hne
  | cons a as ih =>
    intro h hne x hx
    cases as with
    | nil =>
      rcases List.mem_cons.mp hx with h1 | h1
      · subst h1; exact hrefl x
      · exact absurd h1 (by simp)
    | cons b bs =>
      have hlast : (a :: b :: bs).getLast hne = (b :: bs).getLast (by simp) :=
        List.getLast_cons (by simp)
      rw [hlast]
      rcases List.mem_cons.mp hx with h1 | h1
      · subst h1
        exact List.rel_of_sorted_cons h _ (List.getLast_mem (by simp))
      · exact ih (List.Sorted.of_cons h) (by simp) x h1

lemma chunks3_len3_mem :
    ∀ {s : List Char}, s.length % 3 = 0 → ∀ c ∈ chunks3 s, c.length = 3 := by
  intro s
  induction s using chunks3.induct with
  | case1 => intro _ c hc; exact absurd hc (by simp [chunks3])
  | case2 a => intro h; simp at h
  | case3 a b => intro h; simp at h
  | case4 a b c rest ih =>
    intro h x hx
    have hr : rest.length % 3 = 0 := by
      simp only [List.length_cons] at h
      omega
    rcases List.mem_cons.mp hx with h1 | h1
    · subst h1; rfl
    · exact ih hr x h1

lemma chunks3_flatten :
    ∀ {L : List (List Char)}, (∀ c ∈ L, c.length = 3) → chunks3 L.flatten = L := by
  intro L
  induction L with
  | nil => intro _; rfl
  | cons x xs ih =>
    intro h
    have hx := h x (List.mem_cons_self x xs)
    have htail := ih (fun y hy => h y (List.mem_cons_of_mem x hy))
    rcases List.length_eq_three.mp hx with ⟨a, b, c, rfl⟩
    simp only [List.flatten_cons, List.cons_append, List.nil_append]
    rw [chunks3, htail]

lemma chunks3_length :
    ∀ {s : List Char}, s.length % 3 = 0 → 3 * (chunks3 s).length = s.length := by
  intro s
  induction s using chunks3.induct with
  | case1 => intro _; rfl
  | case2 a => intro h; simp at h
  | case3 a b => intro h; simp at h
  | case4 a b c rest ih =>
    intro h
    have hr : rest.length % 3 = 0 := by
      simp only [List.length_cons] at h
      omega
    have hlen := ih hr
    simp only [chunks3, List.length_cons]
    omega

lemma lookupF_mem {row : UsageRow} {c : Codon} {q : ℚ} (h : lookupF row c = some q) :
    (c, q) ∈ row := by
  unfold lookupF at h
  cases hf : row.find? (fun p => p.1 == c) with
  | none => rw [hf] at h; exact absurd h (by simp)
  | some p =>
    rw [hf] at h
    have hq : p.2 = q := by simpa using h
    have hp := List.find?_some hf
    have hm := List.mem_of_find?_eq_some hf
    have h1 : p.1 = c := by simpa using hp
    have hp' : p = (c, q) := by
      cases p
      simp_all
    exact hp' ▸ hm

lemma lookupRow_mem {u : UsageTable} {aa : AminoKey} {row : UsageRow}
    (h : lookupRow u aa = some row) : (aa, row) ∈ u := by
  unfold lookupRow at h
  cases hf : u.find? (fun p => p.1 == aa) with
  | none => rw [hf] at h; exact absurd h (by simp)
  | some p =>
    rw [hf] at h
    have hq : p.2 = row := by simpa using h
    have hp := List.find?_some hf
    have hm := List.mem_of_find?_eq_some hf
    have h1 : p.1 = aa := by simpa using hp
    have hp' : p = (aa, row) := by
      cases p
      simp_all
    exact hp' ▸ hm

lemma lookupF_of_nodup {row : UsageRow} {c : Codon} {q q' : ℚ}
    (hnd : (row.map Prod.fst).Nodup) (h : lookupF row c = some q)
    (hm : (c, q') ∈ row) : q' = q := by
  have hmem : (c, q) ∈ row := lookupF_mem h
  induction row with
  | nil => exact absurd hm (by simp)
  | cons p ps ih =>
    simp only [List.map_cons, List.nodup_cons] at hnd
    rcases List.mem_cons.mp hm with h1 | h1 <;> rcases List.mem_cons.mp hmem with h2 | h2
    · have : (c, q') = (c, q) := h1.trans h2.symm
      simpa using this
    · exfalso
      apply hnd.1
      have hp1 : p.1 = c := by rw [← h1]
      rw [hp1]
      exact List.mem_map.mpr ⟨(c, q), h2, rfl⟩
    · exfalso
      apply hnd.1
      have hp1 : p.1 = c := by rw [← h2]
      rw [hp1]
      exact List.mem_map.mpr ⟨(c, q'), h1, rfl⟩
    · have hl : lookupF ps c = some q := by
        unfold lookupF at h ⊢
        have hp1 : ¬((fun p : Codon × ℚ => p.1 == c) p) := by
          intro hb
          apply hnd.1
          have hpc : p.1 = c := by simpa using hb
          rw [hpc]
          exact List.mem_map.mpr ⟨(c, q'), h1, rfl⟩
        rw [List.find?_cons_of_neg ps hp1] at h
        exact h
      exact ih hnd.2 hl h1 h2

lemma scanStep_stop {cfg : Config} {aa : AminoKey} {oF df : ℚ}
    (hstop : aa = ['*'] ∧ cfg.strong_stop = true) (acc : List Cand × List Cand)
    (p : Codon × ℚ) :
    scanStep cfg aa oF df acc p = (acc.1, acc.2 ++ [(p.1, absQ (oF - p.2), p.2)]) := by
  simp [scanStep, hstop]

lemma scanStep_nonstop {cfg : Config} {aa : AminoKey} {oF df : ℚ}
    (hstop : ¬(aa = ['*'] ∧ cfg.strong_stop = true)) (acc : List Cand × List Cand)
    (p : Codon × ℚ) :
    scanStep cfg aa oF df acc p =
      if p.2 < cfg.lower_threshold ∧ cfg.lower_threshold < oF then acc
      else (acc.1 ++ [(p.1, absQ (oF - p.2), p.2)], acc.2) := by
  simp only [scanStep, if_neg hstop, ite_self]
  split
  · rfl
  · simp

lemma candsOf_cons (threshold oF : ℚ) (p : Codon × ℚ) (ps : UsageRow) :
    candsOf threshold oF (p :: ps) =
      if p.2 < threshold ∧ threshold < oF then candsOf threshold oF ps
      else (p.1, absQ (oF - p.2), p.2) :: candsOf threshold oF ps := by
  unfold candsOf
  rw [List.filter_cons]
  by_cases h : p.2 < threshold ∧ threshold < oF
  · simp [h]
  · simp [h]

lemma scanRow_go_stop {cfg : Config} {aa : AminoKey} {oF df : ℚ}
    (hstop : aa = ['*'] ∧ cfg.strong_stop = true) :
    ∀ (row : UsageRow) (acc : List Cand × List Cand),
      row.foldl (scanStep cfg aa oF df) acc = (acc.1, acc.2 ++ stopsOf oF row)
  | [], acc => by simp [stopsOf]
  | p :: ps, acc => by
    rw [List.foldl_cons, scanStep_stop hstop, scanRow_go_stop hstop ps]
    simp [stopsOf]

lemma scanRow_go_nonstop {cfg : Config} {aa : AminoKey} {oF df : ℚ}
    (hstop : ¬(aa = ['*'] ∧ cfg.strong_stop = true)) :
    ∀ (row : UsageRow) (acc : List Cand × List Cand),
      row.foldl (scanStep cfg aa oF df) acc =
        (acc.1 ++ candsOf cfg.lower_threshold oF row, acc.2)
  | [], acc => by simp [candsOf]
  | p :: ps, acc => by
    rw [List.foldl_cons, scanStep_nonstop hstop, candsOf_cons]
    by_cases h : p.2 < cfg.lower_threshold ∧ cfg.lower_threshold < oF
    · rw [if_pos h, if_pos h, scanRow_go_nonstop hstop ps]
    · rw [if_neg h, if_neg h, scanRow_go_nonstop hstop ps]
      simp

lemma scanRow_stop {cfg : Config} {aa : AminoKey} {oF df : ℚ} {row : UsageRow}
    (hstop : aa = ['*'] ∧ cfg.strong_stop = true) :
    scanRow cfg aa oF df row = ([], stopsOf oF row) := by
  unfold scanRow
  rw [scanRow_go_stop hstop row ([], [])]
  simp

lemma scanRow_nonstop {cfg : Config} {aa : AminoKey} {oF df : ℚ} {row : UsageRow}
    (hstop : ¬(aa = ['*'] ∧ cfg.strong_stop = true)) :
    scanRow cfg aa oF df row = (candsOf cfg.lower_threshold oF row, []) := by
  unfold scanRow
  rw [scanRow_go_nonstop hstop row ([], [])]
  simp

lemma mem_candsOf {threshold oF : ℚ} {row : UsageRow} {t : Cand} :
    t ∈ candsOf threshold oF row ↔
      (t.1, t.2.2) ∈ row ∧ t.2.1 = absQ (oF - t.2.2) ∧
        ¬(t.2.2 < threshold ∧ threshold < oF) := by
  unfold candsOf
  constructor
  · intro h
    rcases List.mem_map.mp h with ⟨p, hp, hpe⟩
    rcases List.mem_filter.mp hp with ⟨hpm, hpf⟩
    have hth : ¬(p.2 < threshold ∧ threshold < oF) := by
      intro hcon
      simp [hcon] at hpf
    rcases t with ⟨c, d, f⟩
    have h1 : p.1 = c := congrArg (fun x => x.1) hpe
    have h2 : absQ (oF - p.2) = d := by
      have := congrArg (fun x => x.2.1) hpe
      simpa using this
    have h3 : p.2 = f := by
      have := congrArg (fun x => x.2.2) hpe
      simpa using this
    refine ⟨?_, ?_, ?_⟩
    · rw [← h1, ← h3]; exact hpm
    · simp only [← h2, ← h3]
    · rw [← h3]; exact hth
  · rintro ⟨hm, hd, hth⟩
    apply List.mem_map.mpr
    refine ⟨(t.1, t.2.2),
      List.mem_filter.mpr
        ⟨hm, by simp only [Bool.not_eq_true', decide_eq_false_iff_not]; exact hth⟩, ?_⟩
    rcases t with ⟨c, d, f⟩
    simp only at hd ⊢
    rw [← hd]

lemma mem_stopsOf {oF : ℚ} {row : UsageRow} {t : Cand} :
    t ∈ stopsOf oF row ↔ (t.1, t.2.2) ∈ row ∧ t.2.1 = absQ (oF - t.2.2) := by
  unfold stopsOf
  constructor
  · intro h
    rcases List.mem_map.mp h with ⟨p, hp, hpe⟩
    rcases t with ⟨c, d, f⟩
    have h1 : p.1 = c := congrArg (fun x => x.1) hpe
    have h2 : absQ (oF - p.2) = d := by
      have := congrArg (fun x => x.2.1) hpe
      simpa using this
    have h3 : p.2 = f := by
      have := congrArg (fun x => x.2.2) hpe
      simpa using this
    constructor
    · rw [← h1, ← h3]; exact hp
    · simp only [← h2, ← h3]
  · rintro ⟨hm, hd⟩
    apply List.mem_map.mpr
    refine ⟨(t.1, t.2.2), hm, ?_⟩
    rcases t with ⟨c, d, f⟩
    simp only at hd ⊢
    rw [← hd]

lemma mkRecords_ok {tbl : TransTable} :
    ∀ {l : List (List Char)} {p : Nat} {rs : List CodonRecord},
      mkRecords tbl p l = .ok rs →
      rs.map (fun r => r.original) = l ∧
      rs.map (fun r => r.position) = List.range' (p + 1) l.length ∧
      ∀ r ∈ rs,
        (r.original.length = 3 → ∃ a, tbl.toAA r.original = some a ∧ r.aa = [a]) ∧
        (¬r.original.length = 3 → r.aa = []) := by
  intro l
  induction l with
  | nil =>
    intro p rs h
    have : rs = [] := by
      simp only [mkRecords] at h
      cases h
      rfl
    subst this
    simp
  | cons c rest ih =>
    intro p rs h
    simp only [mkRecords] at h
    by_cases hc : c.length = 3
    · rw [if_pos hc] at h
      cases htbl : tbl.toAA c with
      | none => rw [htbl] at h; cases h
      | some a =>
        rw [htbl] at h
        cases hrec : mkRecords tbl (p + 1) rest with
        | err e => rw [hrec] at h; cases h
        | ok rs' =>
          rw [hrec] at h
          cases h
          obtain ⟨ho, hp, hf⟩ := ih hrec
          refine ⟨by simp [ho], ?_, ?_⟩
          · simp only [List.map_cons, hp, List.length_cons, List.range'_succ]
          · intro r hr
            rcases List.mem_cons.mp hr with h1 | h1
            · subst h1
              exact ⟨fun _ => ⟨a, htbl, rfl⟩, fun hlen => absurd hc hlen⟩
            · exact hf r h1
    · rw [if_neg hc] at h
      cases hrec : mkRecords tbl (p + 1) rest with
      | err e => rw [hrec] at h; cases h
      | ok rs' =>
        rw [hrec] at h
        cases h
        obtain ⟨ho, hp, hf⟩ := ih hrec
        refine ⟨by simp [ho], ?_, ?_⟩
        · simp only [List.map_cons, hp, List.length_cons, List.range'_succ]
        · intro r hr
          rcases List.mem_cons.mp hr with h1 | h1
          · subst h1
            exact ⟨fun hlen => absurd hlen hc, fun _ => rfl⟩
          · exact hf r h1

lemma splitToCodons_ok {tbl : TransTable} {s : List Char} {cs : List CodonRecord}
    (h : splitToCodons tbl s = .ok cs) (hlen : s.length % 3 = 0) :
    cs.map (fun r => r.original) = chunks3 s ∧
    cs.map (fun r => r.position) = List.range' 1 cs.length ∧
    ∀ r ∈ cs, r.original.length = 3 ∧ ∃ a, tbl.toAA r.original = some a ∧ r.aa = [a] := by
  obtain ⟨ho, hp, hf⟩ := mkRecords_ok h
  have hlens : cs.length = (chunks3 s).length := by
    rw [← ho, List.length_map]
  refine ⟨ho, by rw [hp, hlens], ?_⟩
  intro r hr
  have hmem : r.original ∈ chunks3 s := by
    rw [← ho]
    exact List.mem_map.mpr ⟨r, hr, rfl⟩
  have h3 : r.original.length = 3 := chunks3_len3_mem hlen _ hmem
  exact ⟨h3, (hf r hr).1 h3⟩

lemma split_aa_fun {tbl : TransTable} {s : List Char} {cs : List CodonRecord}
    (h : splitToCodons tbl s = .ok cs) :
    ∀ r1 ∈ cs, ∀ r2 ∈ cs, r1.original = r2.original → r1.aa = r2.aa := by
  obtain ⟨-, -, hf⟩ := mkRecords_ok h
  intro r1 h1 r2 h2 he
  by_cases h3 : r1.original.length = 3
  · obtain ⟨a, ht1, ha1⟩ := (hf r1 h1).1 h3
    obtain ⟨a', ht2, ha2⟩ := (hf r2 h2).1 (he ▸ h3)
    rw [he] at ht1
    rw [ht1] at ht2
    cases ht2
    rw [ha1, ha2]
  · rw [(hf r1 h1).2 h3, (hf r2 h2).2 (he ▸ h3)]

lemma candLe_refl (a : Cand) : candLe a a := Or.inr ⟨rfl, le_refl _⟩

lemma candLe_df_le {a b : Cand} (h : candLe a b) : a.2.1 ≤ b.2.1 := by
  rcases h with h | ⟨h, -⟩
  · exact le_of_lt h
  · exact le_of_eq h

lemma candLe_f_le_of_df_eq {a b : Cand} (h : candLe a b) (he : b.2.1 = a.2.1) :
    a.2.2 ≤ b.2.2 := by
  rcases h with h | ⟨-, h⟩
  · exact absurd h (by rw [he]; exact lt_irrefl _)
  · exact h

lemma sorted_head_min {l : List Cand} (h : List.Sorted candLe l) (x : Cand)
    (hx : x ∈ l) : candLe (l.getD 0 default) x := by
  cases l with
  | nil => exact absurd hx (by simp)
  | cons a as =>
    rcases List.mem_cons.mp hx with h1 | h1
    · subst h1; exact candLe_refl x
    · exact List.rel_of_sorted_cons h x h1

lemma resolveCore_some_lookups {cfg : Config} {uo uh : UsageTable} {aa : AminoKey}
    {orig : Codon} {res : Resolved} (hres : resolveCore cfg uo uh aa orig = some res) :
    ∃ rowO rowH oF tF, lookupRow uo aa = some rowO ∧ lookupRow uh aa = some rowH ∧
      lookupF rowO orig = some oF ∧ lookupF rowH orig = some tF := by
  unfold resolveCore at hres
  split at hres
  · cases hres
  next rowO h1 =>
    split at hres
    · cases hres
    next rowH h2 =>
      split at hres
      · cases hres
      next oF h3 =>
        split at hres
        · cases hres
        next tF h4 =>
          exact ⟨rowO, rowH, oF, tF, h1, h2, h3, h4⟩

lemma resolveCore_eq_sel {cfg : Config} {uo uh : UsageTable} {aa : AminoKey}
    {orig : Codon} {rowO rowH : UsageRow} {oF tF : ℚ}
    (h1 : lookupRow uo aa = some rowO) (h2 : lookupRow uh aa = some rowH)
    (h3 : lookupF rowO orig = some oF) (h4 : lookupF rowH orig = some tF) :
    resolveCore cfg uo uh aa orig = resolveSel cfg aa orig oF tF rowH := by
  unfold resolveCore
  rw [h1]
  simp only
  rw [h2]
  simp only
  rw [h3]
  simp only
  rw [h4]

lemma resolveSel_cand {cfg : Config} {aa : AminoKey} {orig : Codon} {oF tF : ℚ}
    {rowH : UsageRow} {res : Resolved}
    (hne : (scanRow cfg aa oF (absQ (oF - tF)) rowH).1 ≠ [])
    (hres : resolveSel cfg aa orig oF tF rowH = some res) :
    res.origin_f = oF ∧ res.initial_df = absQ (oF - tF) ∧
    ∃ t ∈ (scanRow cfg aa oF (absQ (oF - tF)) rowH).1,
      res.new = t.1 ∧ res.final_df = t.2.1 ∧ res.target_f = t.2.2 ∧
      (∀ u ∈ (scanRow cfg aa oF (absQ (oF - tF)) rowH).1, t.2.1 ≤ u.2.1) ∧
      (cfg.lower_alternative = true →
        ∀ u ∈ (scanRow cfg aa oF (absQ (oF - tF)) rowH).1, u.2.1 = t.2.1 → t.2.2 ≤ u.2.2) := by
  have hperm := List.perm_insertionSort candLe (scanRow cfg aa oF (absQ (oF - tF)) rowH).1
  have hsort := List.sorted_insertionSort candLe (scanRow cfg aa oF (absQ (oF - tF)) rowH).1
  set subs := (scanRow cfg aa oF (absQ (oF - tF)) rowH).1 with hsubs
  set sorted := subs.insertionSort candLe with hsorted
  have hsne : sorted ≠ [] := by
    intro h0
    rw [h0] at hperm
    exact hne hperm.symm.eq_nil
  obtain ⟨x, xs, hx⟩ : ∃ x xs, sorted = x :: xs := by
    cases hs : sorted with
    | nil => exact absurd hs hsne
    | cons a as => exact ⟨a, as, rfl⟩
  have hmin : ∀ u ∈ subs, candLe x u := by
    intro u hu
    have hh := sorted_head_min hsort u (hperm.mem_iff.mpr hu)
    rwa [hx] at hh
  have hxm : x ∈ subs := hperm.mem_iff.mp (hx ▸ List.mem_cons_self x xs)
  unfold resolveSel at hres
  rw [if_pos hne] at hres
  simp only [← hsubs, ← hsorted] at hres
  by_cases hb1 : 2 ≤ subs.length
  · by_cases hb2 : (sorted.getD 0 default).2.1 = (sorted.getD 1 default).2.1 ∧
        ¬((sorted.getD 0 default).2.2 = (sorted.getD 1 default).2.2)
    · by_cases hb3 : cfg.lower_alternative = false ∧ 1 < sorted.length
      · rw [if_pos hb1, if_pos hb2, if_pos hb3,
          if_pos (rfl : (true : Bool) = true)] at hres
        obtain ⟨y, ys, hxs⟩ : ∃ y ys, xs = y :: ys := by
          cases hs : xs with
          | nil =>
            exfalso
            rw [hx, hs] at hb3
            simp at hb3
          | cons a as => exact ⟨a, as, rfl⟩
        have hget1 : sorted.getD 1 default = y := by rw [hx, hxs]; rfl
        have hget0 : sorted.getD 0 default = x := by rw [hx]; rfl
        rw [hget1] at hres
        have hres' : res = { origin_f := oF, target_f := y.2.2, initial_df := absQ (oF - tF),
                             final_df := y.2.1, new := y.1 } :=
          ((Option.some.injEq _ _).mp hres).symm
        subst hres'
        refine ⟨rfl, rfl, y, ?_, rfl, rfl, rfl, ?_, ?_⟩
        · exact hperm.mem_iff.mp (hx ▸ hxs ▸ List.mem_cons_of_mem x (List.mem_cons_self y ys))
        · intro u hu
          have hxu := candLe_df_le (hmin u hu)
          have hxy : x.2.1 = y.2.1 := by rw [← hget0, ← hget1]; exact hb2.1
          simpa [← hxy] using hxu
        · intro hla
          rw [hb3.1] at hla
          cases hla
      · rw [if_pos hb1, if_pos hb2, if_neg hb3,
          if_neg Bool.false_ne_true] at hres
        have hget0 : sorted.getD 0 default = x := by rw [hx]; rfl
        rw [hget0] at hres
        have hres' : res = { origin_f := oF, target_f := x.2.2, initial_df := absQ (oF - tF),
                             final_df := x.2.1, new := x.1 } :=
          ((Option.some.injEq _ _).mp hres).symm
        subst hres'
        refine ⟨rfl, rfl, x, hxm, rfl, rfl, rfl, fun u hu => candLe_df_le (hmin u hu), ?_⟩
        intro _ u hu hdf
        exact candLe_f_le_of_df_eq (hmin u hu) hdf
    · rw [if_pos hb1, if_neg hb2, if_neg Bool.false_ne_true] at hres
      have hget0 : sorted.getD 0 default = x := by rw [hx]; rfl
      rw [hget0] at hres
      have hres' : res = { origin_f := oF, target_f := x.2.2, initial_df := absQ (oF - tF),
                           final_df := x.2.1, new := x.1 } :=
        ((Option.some.injEq _ _).mp hres).symm
      subst hres'
      refine ⟨rfl, rfl, x, hxm, rfl, rfl, rfl, fun u hu => candLe_df_le (hmin u hu), ?_⟩
      intro _ u hu hdf
      exact candLe_f_le_of_df_eq (hmin u hu) hdf
  · rw [if_neg hb1, if_neg Bool.false_ne_true] at hres
    have hget0 : sorted.getD 0 default = x := by rw [hx]; rfl
    rw [hget0] at hres
    have hres' : res = { origin_f := oF, target_f := x.2.2, initial_df := absQ (oF - tF),
                         final_df := x.2.1, new := x.1 } :=
      ((Option.some.injEq _ _).mp hres).symm
    subst hres'
    refine ⟨rfl, rfl, x, hxm, rfl, rfl, rfl, fun u hu => candLe_df_le (hmin u hu), ?_⟩
    intro _ u hu hdf
    exact candLe_f_le_of_df_eq (hmin u hu) hdf

lemma stopLe_refl (a : Cand) : stopLe a a := le_refl _

lemma resolveSel_stop {cfg : Config} {aa : AminoKey} {orig : Codon} {oF tF : ℚ}
    {rowH : UsageRow} {res : Resolved}
    (hstop : aa = ['*'] ∧ cfg.strong_stop = true)
    (hres : resolveSel cfg aa orig oF tF rowH = some res) :
    res.origin_f = oF ∧ res.initial_df = absQ (oF - tF) ∧
    ∃ t ∈ stopsOf oF rowH,
      res.new = t.1 ∧ res.final_df = t.2.1 ∧ res.target_f = t.2.2 ∧
      ∀ u ∈ stopsOf oF rowH, u.2.2 ≤ t.2.2 := by
  have hscan := @scanRow_stop cfg aa oF (absQ (oF - tF)) rowH hstop
  have hperm := List.perm_insertionSort stopLe (stopsOf oF rowH)
  have hsort := List.sorted_insertionSort stopLe (stopsOf oF rowH)
  unfold resolveSel at hres
  dsimp only at hres
  rw [hscan] at hres
  rw [if_neg (by simp)] at hres
  rw [if_pos hstop] at hres
  cases hlast : (List.insertionSort stopLe (stopsOf oF rowH)).getLast? with
  | none => rw [hlast] at hres; cases hres
  | some chosen =>
    rw [hlast] at hres
    have hres' : res = { origin_f := oF, target_f := chosen.2.2, initial_df := absQ (oF - tF),
                         final_df := chosen.2.1, new := chosen.1 } :=
      ((Option.some.injEq _ _).mp hres).symm
    subst hres'
    have hsne : List.insertionSort stopLe (stopsOf oF rowH) ≠ [] := by
      intro h0
      rw [h0] at hlast
      cases hlast
    have hchosen : chosen = (List.insertionSort stopLe (stopsOf oF rowH)).getLast hsne := by
      rw [List.getLast?_eq_getLast _ hsne] at hlast
      exact ((Option.some.injEq _ _).mp hlast).symm
    refine ⟨rfl, rfl, chosen, ?_, rfl, rfl, rfl, ?_⟩
    · rw [hchosen]
      exact hperm.mem_iff.mp (List.getLast_mem hsne)
    · intro u hu
      have := rel_getLast_of_sorted stopLe_refl hsort hsne u (hperm.mem_iff.mpr hu)
      rw [hchosen]
      exact this

lemma resolveSel_fallback {cfg : Config} {aa : AminoKey} {orig : Codon} {oF tF : ℚ}
    {rowH : UsageRow} {res : Resolved}
    (hnotstop : ¬(aa = ['*'] ∧ cfg.strong_stop = true))
    (hempty : (scanRow cfg aa oF (absQ (oF - tF)) rowH).1 = [])
    (hres : resolveSel cfg aa orig oF tF rowH = some res) :
    res = { origin_f := oF, target_f := tF, initial_df := absQ (oF - tF),
            final_df := absQ (oF - tF), new := orig } := by
  unfold resolveSel at hres
  dsimp only at hres
  rw [if_neg (by simpa using hempty)] at hres
  rw [if_neg hnotstop] at hres
  exact ((Option.some.injEq _ _).mp hres).symm

lemma resolveSel_new_mem {cfg : Config} {aa : AminoKey} {orig : Codon} {oF tF : ℚ}
    {rowH : UsageRow} {res : Resolved}
    (h4 : lookupF rowH orig = some tF)
    (hres : resolveSel cfg aa orig oF tF rowH = some res) :
    ∃ q, (res.new, q) ∈ rowH := by
  by_cases hne : (scanRow cfg aa oF (absQ (oF - tF)) rowH).1 ≠ []
  · obtain ⟨-, -, t, htm, hnew, -, -, -, -⟩ := resolveSel_cand hne hres
    by_cases hstop : aa = ['*'] ∧ cfg.strong_stop = true
    · rw [scanRow_stop hstop] at hne
      exact absurd rfl hne
    · rw [scanRow_nonstop hstop] at htm
      obtain ⟨hm, -, -⟩ := mem_candsOf.mp htm
      exact ⟨t.2.2, hnew ▸ hm⟩
  · push_neg at hne
    by_cases hstop : aa = ['*'] ∧ cfg.strong_stop = true
    · obtain ⟨-, -, t, htm, hnew, -, -, -⟩ := resolveSel_stop hstop hres
      obtain ⟨hm, -⟩ := mem_stopsOf.mp htm
      exact ⟨t.2.2, hnew ▸ hm⟩
    · have := resolveSel_fallback hstop hne hres
      subst this
      exact ⟨tF, lookupF_mem h4⟩

lemma resolveCore_new_mem {cfg : Config} {uo uh : UsageTable} {aa : AminoKey}
    {orig : Codon} {res : Resolved}
    (hres : resolveCore cfg uo uh aa orig = some res) :
    ∃ rowH q, lookupRow uh aa = some rowH ∧ (res.new, q) ∈ rowH := by
  obtain ⟨rowO, rowH, oF, tF, h1, h2, h3, h4⟩ := resolveCore_some_lookups hres
  rw [resolveCore_eq_sel h1 h2 h3 h4] at hres
  obtain ⟨q, hq⟩ := resolveSel_new_mem h4 hres
  exact ⟨rowH, q, h2, hq⟩

lemma uniqueByOriginal_sub :
    ∀ {l : List CodonRecord} {seen : List Codon} {u : CodonRecord},
      u ∈ uniqueByOriginal l seen → u ∈ l := by
  intro l
  induction l with
  | nil => intro seen u h; exact absurd h (by simp [uniqueByOriginal])
  | cons r rs ih =>
    intro seen u h
    unfold uniqueByOriginal at h
    by_cases hr : r.original ∈ seen
    · rw [if_pos hr] at h
      exact List.mem_cons_of_mem r (ih h)
    · rw [if_neg hr] at h
      rcases List.mem_cons.mp h with h1 | h1
      · subst h1; exact List.mem_cons_self _ _
      · exact List.mem_cons_of_mem r (ih h1)

lemma uniqueByOriginal_covers :
    ∀ {l : List CodonRecord} {seen : List Codon} {r : CodonRecord},
      r ∈ l → r.original ∉ seen →
      ∃ u ∈ uniqueByOriginal l seen, u.original = r.original := by
  intro l
  induction l with
  | nil => intro seen r h; exact absurd h (by simp)
  | cons r0 rs ih =>
    intro seen r h hseen
    unfold uniqueByOriginal
    by_cases hr0 : r0.original ∈ seen
    · rw [if_pos hr0]
      rcases List.mem_cons.mp h with h1 | h1
      · exact absurd (h1 ▸ hr0) hseen
      · exact ih h1 hseen
    · rw [if_neg hr0]
      rcases List.mem_cons.mp h with h1 | h1
      · exact ⟨r0, List.mem_cons_self _ _, by rw [h1]⟩
      · by_cases heq : r.original = r0.original
        · exact ⟨r0, List.mem_cons_self _ _, heq.symm⟩
        · have hnot : r.original ∉ seen ++ [r0.original] := by
            intro hc
            rcases List.mem_append.mp hc with hc | hc
            · exact hseen hc
            · exact heq (by simpa using hc)
          obtain ⟨u, hu, huo⟩ := ih h1 hnot
          exact ⟨u, List.mem_cons_of_mem r0 hu, huo⟩

lemma applyResolved_original (r : CodonRecord) (f : Resolved) :
    (applyResolved r f).original = r.original := rfl

lemma applyResolved_aa (r : CodonRecord) (f : Resolved) :
    (applyResolved r f).aa = r.aa := rfl

lemma applyResolved_position (r : CodonRecord) (f : Resolved) :
    (applyResolved r f).position = r.position := rfl

/-- Memoized and direct resolution agree: when the amino acid recorded with a
codon dictionary is a function of its `original` triplet (which the
splitter guarantees), harmonizing through the replacement table gives the
same codon list as running `sort_replacement_codons` on every position. -/
lemma harmonize_eq_direct {cfg : Config} {uo uh : UsageTable}
    {codons : List CodonRecord}
    (haa : ∀ r1 ∈ codons, ∀ r2 ∈ codons, r1.original = r2.original → r1.aa = r2.aa) :
    harmonizeCodons cfg uo uh codons = sortReplacementCodons cfg uo uh codons := by
  by_cases hflag : cfg.use_replacement_table = true
  · unfold harmonizeCodons computeReplacementTable
    rw [if_pos hflag]
    by_cases hfail : ∃ r ∈ codons, resolveCore cfg uo uh r.aa r.original = none
    · obtain ⟨r, hr, hrn⟩ := hfail
      obtain ⟨u, hu, huo⟩ := @uniqueByOriginal_covers _ [] _ hr (List.not_mem_nil _)
      have hua : u.aa = r.aa := haa u (uniqueByOriginal_sub hu) r hr huo
      have hun : resolveRecord cfg uo uh u = none := by
        unfold resolveRecord
        rw [huo, hua, hrn]
        rfl
      have hm : sortReplacementCodons cfg uo uh (uniqueByOriginal codons []) = none :=
        traverseOpt_none_of_mem _ hu hun
      have hrn' : resolveRecord cfg uo uh r = none := by
        unfold resolveRecord
        rw [hrn]
        rfl
      have hd : sortReplacementCodons cfg uo uh codons = none :=
        traverseOpt_none_of_mem _ hr hrn'
      rw [hm, hd]
    · push_neg at hfail
      have hres : ∀ r ∈ codons,
          resolveCore cfg uo uh r.aa r.original =
            some ((resolveCore cfg uo uh r.aa r.original).getD default) := by
        intro r hr
        cases hc : resolveCore cfg uo uh r.aa r.original with
        | none => exact absurd hc (hfail r hr)
        | some v => rfl
      have hresR : ∀ r ∈ codons,
          resolveRecord cfg uo uh r =
            some (applyResolved r ((resolveCore cfg uo uh r.aa r.original).getD default)) := by
        intro r hr
        unfold resolveRecord
        rw [hres r hr]
        rfl
      have hd : sortReplacementCodons cfg uo uh codons =
          some (codons.map
            (fun r => applyResolved r ((resolveCore cfg uo uh r.aa r.original).getD default))) :=
        traverseOpt_eq_some_map _ _ _ hresR
      have hmU : sortReplacementCodons cfg uo uh (uniqueByOriginal codons []) =
          some ((uniqueByOriginal codons []).map
            (fun u => applyResolved u ((resolveCore cfg uo uh u.aa u.original).getD default))) :=
        traverseOpt_eq_some_map _ _ _
          (fun u hu => hresR u (uniqueByOriginal_sub hu))
      rw [hmU, hd]
      simp only
      congr 1
      apply List.map_congr_left
      intro r hr
      unfold copyFromTable
      rw [List.find?_map]
      have hex : ∃ u ∈ uniqueByOriginal codons [],
          (fun u : CodonRecord => u.original == r.original) u = true := by
        obtain ⟨u, hu, huo⟩ := @uniqueByOriginal_covers _ [] _ hr (List.not_mem_nil _)
        exact ⟨u, hu, by simp [huo]⟩
      obtain ⟨u₀, hfind⟩ :=
        Option.isSome_iff_exists.mp (List.find?_isSome.mpr hex)
      have hcomp : ((uniqueByOriginal codons []).find?
            ((fun u : CodonRecord => u.original == r.original) ∘
              (fun u => applyResolved u ((resolveCore cfg uo uh u.aa u.original).getD default)))) =
          (uniqueByOriginal codons []).find?
            (fun u : CodonRecord => u.original == r.original) := rfl
      rw [hcomp, hfind]
      have hu₀m : u₀ ∈ uniqueByOriginal codons [] := List.mem_of_find?_eq_some hfind
      have hu₀o : u₀.original = r.original := by
        have := List.find?_some hfind
        simpa using this
      have hu₀a : u₀.aa = r.aa := haa u₀ (uniqueByOriginal_sub hu₀m) r hr hu₀o
      simp only [Option.map_some']
      simp [applyResolved, CodonRecord.ext_iff, hu₀o, hu₀a]
  · unfold harmonizeCodons
    rw [if_neg hflag]

lemma translateSequence_congr {f g : Bool → Bool → Option (List Char)}
    (h : ∀ c t, f c t = g c t) :
    ∀ (fuel : Nat) (c t : Bool), translateSequence f fuel c t = translateSequence g fuel c t
  | 0, _, _ => rfl
  | fuel + 1, c, t => by
    unfold translateSequence
    rw [h c t]
    cases g c t with
    | some r => rfl
    | none => exact translateSequence_congr h fuel false true

lemma rawTranslate_of_forall₂ {tbl : TransTable} :
    ∀ {L : List (List Char)} {as : List Char},
      List.Forall₂ (fun c a => c.length = 3 ∧ tbl.toAA c = some a) L as →
      rawTranslate tbl L = some as := by
  intro L as h
  induction h with
  | nil => rfl
  | cons hx _ ih =>
    unfold rawTranslate
    rw [if_pos hx.1, hx.2, ih]
    rfl

lemma bioTranslate_congr {t1 t2 : TransTable} {s1 s2 : List Char}
    (h : rawTranslate t1 (chunks3 s1) = rawTranslate t2 (chunks3 s2)) :
    ∀ c t, bioTranslate t1 s1 c t = bioTranslate t2 s2 c t := by
  intro c t
  unfold bioTranslate
  rw [h]

lemma construct_ok {codons : List CodonRecord} {harm : List Char}
    (h : constructNewSequence codons = .ok harm) :
    ∃ L, traverseOpt (fun r => r.new) codons = some L ∧ harm = L.flatten := by
  unfold constructNewSequence at h
  cases ht : traverseOpt (fun r : CodonRecord => r.new) codons with
  | none => rw [ht] at h; cases h
  | some L =>
    rw [ht] at h
    refine ⟨L, rfl, ?_⟩
    cases h
    rfl

lemma runSequence_ok {fuel : Nat} {a : InitArgs} {oT hT : TransTable}
    {uo uh : UsageTable} {s : List Char} {st : SeqState}
    (hrun : runSequence fuel a oT hT uo uh s = some (.ok st)) :
    ∃ ot cs0 cs harm ht,
      translateSequence (fun c t => bioTranslate oT s c t) fuel true false = some ot ∧
      splitToCodons oT s = .ok cs0 ∧
      harmonizeCodons (mkCfg a) uo uh cs0 = some cs ∧
      constructNewSequence cs = .ok harm ∧
      translateSequence (fun c t => bioTranslate hT harm c t) fuel true false = some ht ∧
      st = ⟨cs, ot, harm, ht⟩ := by
  unfold runSequence at hrun
  dsimp only at hrun
  split at hrun
  · exact absurd ((Option.some.injEq _ _).mp hrun) (by intro h; cases h)
  · split at hrun
    · cases hrun
    next ot hot =>
      split at hrun
      next e hsplit => cases ((Option.some.injEq _ _).mp hrun)
      next cs0 hsplit =>
        split at hrun
        · cases ((Option.some.injEq _ _).mp hrun)
        next cs hharm =>
          split at hrun
          next e hcons => cases ((Option.some.injEq _ _).mp hrun)
          next harm hcons =>
            split at hrun
            · cases hrun
            next ht hht =>
              have hst : st = ⟨cs, ot, harm, ht⟩ := by
                have := (Option.some.injEq _ _).mp hrun
                cases this
                rfl
              exact ⟨ot, cs0, cs, harm, ht, hot, hsplit, hharm, hcons, hht, hst⟩

lemma resolveRecord_some {cfg : Config} {uo uh : UsageTable} {r0 r : CodonRecord}
    (h : resolveRecord cfg uo uh r0 = some r) :
    ∃ res, resolveCore cfg uo uh r0.aa r0.original = some res ∧ r = applyResolved r0 res := by
  unfold resolveRecord at h
  cases hc : resolveCore cfg uo uh r0.aa r0.original with
  | none => rw [hc] at h; cases h
  | some res =>
    rw [hc] at h
    exact ⟨res, rfl, ((Option.some.injEq _ _).mp h).symm⟩

lemma forall₂_imp_mem {α β : Type} {P Q : α → β → Prop} :
    ∀ {l : List α} {l' : List β}, List.Forall₂ P l l' →
      (∀ x ∈ l, ∀ y, P x y → Q x y) → List.Forall₂ Q l l' := by
  intro l l' h
  induction h with
  | nil => intro _; exact List.Forall₂.nil
  | cons hx htail ih =>
    intro himp
    refine List.Forall₂.cons (himp _ (List.mem_cons_self _ _) _ hx) ?_
    exact ih (fun x hxm y hy => himp x (List.mem_cons_of_mem _ hxm) y hy)

lemma forall₂_mem_right {α β : Type} {Q : α → β → Prop} :
    ∀ {l : List α} {l' : List β}, List.Forall₂ Q l l' →
      ∀ y ∈ l', ∃ x ∈ l, Q x y := by
  intro l l' h
  induction h with
  | nil => intro y hy; exact absurd hy (by simp)
  | cons hx _ ih =>
    intro y hy
    rcases List.mem_cons.mp hy with h1 | h1
    · exact ⟨_, List.mem_cons_self _ _, h1 ▸ hx⟩
    · obtain ⟨x, hxm, hq⟩ := ih y h1
      exact ⟨x, List.mem_cons_of_mem _ hxm, hq⟩

lemma forall₂_refl_of_mem {α : Type} {R : α → α → Prop} :
    ∀ {l : List α}, (∀ x ∈ l, R x x) → List.Forall₂ R l l := by
  intro l
  induction l with
  | nil => intro _; exact List.Forall₂.nil
  | cons x xs ih =>
    intro h
    exact List.Forall₂.cons (h x (List.mem_cons_self _ _))
      (ih (fun y hy => h y (List.mem_cons_of_mem _ hy)))

lemma map_eq_of_forall₂ {α β γ : Type} {g : α → γ} {g' : β → γ} :
    ∀ {l : List α} {l' : List β}, List.Forall₂ (fun x y => g' y = g x) l l' →
      l'.map g' = l.map g := by
  intro l l' h
  induction h with
  | nil => rfl
  | cons hx _ ih => simp [ih, hx]

/-- All facts that hold of a completed pipeline run on well-formed host usage
data: every resolved codon dictionary carries a replacement triplet that the
host table translates to the same amino acid the origin table assigns the
original triplet; positions are consecutive from 1; the harmonized sequence
is the in-order concatenation of the replacements; its length equals the
input length; and verification succeeds. -/
lemma pipeline_facts {fuel : Nat} {a : InitArgs} {oT hT : TransTable}
    {uo uh : UsageTable} {s : List Char} {st : SeqState}
    (hrun : runSequence fuel a oT hT uo uh s = some (.ok st))
    (hcons : HostConsistent hT uh) (hwf : Wf3 uh) (hlen : s.length % 3 = 0) :
    (∀ r ∈ st.codons, ∃ c aCh, r.new = some c ∧ c.length = 3 ∧
      hT.toAA c = some aCh ∧ oT.toAA r.original = some aCh ∧ r.aa = [aCh]) ∧
    st.codons.map (fun r => r.position) = List.range' 1 st.codons.length ∧
    st.harmonized_sequence = (st.codons.map (fun r => r.new.getD [])).flatten ∧
    st.harmonized_sequence.length = s.length ∧
    verifyHarmonizedSequence st = true := by
  obtain ⟨ot, cs0, cs, harm, ht, hot, hsplit, hharm, hcons', hht, hst⟩ := runSequence_ok hrun
  obtain ⟨horig, hpos0, hrec⟩ := splitToCodons_ok hsplit hlen
  have haa := split_aa_fun hsplit
  rw [harmonize_eq_direct haa] at hharm
  have hfor : List.Forall₂ (fun r0 r => resolveRecord (mkCfg a) uo uh r0 = some r) cs0 cs :=
    traverseOpt_forall₂ _ hharm
  have hQ : List.Forall₂ (fun r0 r =>
      r.position = r0.position ∧ r.original = r0.original ∧ r.aa = r0.aa ∧
      ∃ c aCh, r.new = some c ∧ c.length = 3 ∧ hT.toAA c = some aCh ∧
        oT.toAA r0.original = some aCh ∧ r0.aa = [aCh]) cs0 cs := by
    refine forall₂_imp_mem hfor ?_
    intro r0 hr0 r hres
    obtain ⟨res, hcore, hr⟩ := resolveRecord_some hres
    obtain ⟨rowH, q, hrowH, hmem⟩ := resolveCore_new_mem hcore
    have hrowm := lookupRow_mem hrowH
    have hkey := hcons _ hrowm _ hmem
    obtain ⟨aCh, haCh⟩ : ∃ aCh, hT.toAA res.new = some aCh ∧ r0.aa = [aCh] := by
      cases htAA : hT.toAA res.new with
      | none => rw [htAA] at hkey; cases hkey
      | some x =>
        rw [htAA] at hkey
        exact ⟨x, rfl, ((Option.some.injEq _ _).mp hkey).symm⟩
    have hlen3 : res.new.length = 3 := hwf _ hrowm _ hmem
    obtain ⟨-, a0, htr, haa0⟩ := hrec r0 hr0
    have haEq : a0 = aCh := by
      rw [haa0] at haCh
      exact (List.cons.injEq _ _ _ _).mp haCh.2 |>.1
    subst hr
    refine ⟨rfl, rfl, rfl, res.new, aCh, rfl, hlen3, haCh.1, ?_, haCh.2⟩
    rw [← haEq]
    exact htr
  have hlength : cs0.length = cs.length := hQ.length_eq
  have hA : ∀ r ∈ cs, ∃ c aCh, r.new = some c ∧ c.length = 3 ∧
      hT.toAA c = some aCh ∧ oT.toAA r.original = some aCh ∧ r.aa = [aCh] := by
    intro r hr
    obtain ⟨r0, hr0, hpos, horg, haaeq, c, aCh, hnew, h3, hhost, horigin, hkey⟩ :=
      forall₂_mem_right hQ r hr
    exact ⟨c, aCh, hnew, h3, hhost, horg ▸ horigin, haaeq ▸ hkey⟩
  have hposmap : cs.map (fun r => r.position) = List.range' 1 cs.length := by
    have hmap : cs.map (fun r => r.position) = cs0.map (fun r => r.position) :=
      map_eq_of_forall₂ (forall₂_imp_mem hQ (fun x _ y hy => hy.1))
    rw [hmap, hpos0, ← hlength]
  obtain ⟨L, htrav, hflat⟩ := construct_ok hcons'
  have hLmap : L = cs.map (fun r => r.new.getD []) :=
    forall₂_some_eq_map _ [] (traverseOpt_forall₂ _ htrav)
  have hL3 : ∀ x ∈ L, x.length = 3 := by
    intro x hx
    rw [hLmap] at hx
    obtain ⟨r, hr, hrx⟩ := List.mem_map.mp hx
    obtain ⟨c, aCh, hnew, h3, -, -, -⟩ := hA r hr
    rw [← hrx, hnew]
    exact h3
  have hharmlen : harm.length = s.length := by
    rw [hflat, flatten_length_of_len3 hL3, hLmap, List.length_map, ← hlength]
    rw [← chunks3_length hlen]
    have : cs0.length = (chunks3 s).length := by
      rw [← horig, List.length_map]
    rw [this]
  have hAs : rawTranslate oT (chunks3 s) = some (cs.map (fun r => r.aa.headD 'A')) := by
    apply rawTranslate_of_forall₂
    rw [← horig]
    rw [List.forall₂_map_left_iff, List.forall₂_map_right_iff]
    refine forall₂_imp_mem hQ ?_
    intro r0 hr0 r hy
    obtain ⟨-, -, haaeq, c, aCh, -, -, -, horigin, hkey⟩ := hy
    obtain ⟨h3, -⟩ := hrec r0 hr0
    refine ⟨h3, ?_⟩
    rw [haaeq, hkey]
    simpa using horigin
  have hAh : rawTranslate hT (chunks3 harm) = some (cs.map (fun r => r.aa.headD 'A')) := by
    have hchunks : chunks3 harm = L := by
      rw [hflat]
      exact chunks3_flatten hL3
    rw [hchunks, hLmap]
    apply rawTranslate_of_forall₂
    rw [List.forall₂_map_left_iff, List.forall₂_map_right_iff]
    apply forall₂_refl_of_mem
    intro r hr
    obtain ⟨c, aCh, hnew, h3, hhost, -, hkey⟩ := hA r hr
    rw [hnew, hkey]
    exact ⟨h3, by simpa using hhost⟩
  have hoteq : ot = ht := by
    have hbio := bioTranslate_congr (hAs.trans hAh.symm)
    have := translateSequence_congr hbio fuel true false
    rw [hot, hht] at this
    exact (Option.some.injEq _ _).mp this
  subst hst
  refine ⟨hA, hposmap, ?_, hharmlen, ?_⟩
  · rw [hflat, hLmap]
  · unfold verifyHarmonizedSequence
    simp [hoteq]

/-- Structural facts of a completed pipeline run that need only the
triplet-wellformedness of the host table: positions are consecutive from 1,
the harmonized sequence is the in-order concatenation of the replacements,
and its length equals the input length. -/
lemma pipeline_struct {fuel : Nat} {a : InitArgs} {oT hT : TransTable}
    {uo uh : UsageTable} {s : List Char} {st : SeqState}
    (hrun : runSequence fuel a oT hT uo uh s = some (.ok st))
    (hwf : Wf3 uh) (hlen : s.length % 3 = 0) :
    st.codons.map (fun r => r.position) = List.range' 1 st.codons.length ∧
    st.harmonized_sequence = (st.codons.map (fun r => r.new.getD [])).flatten ∧
    st.harmonized_sequence.length = s.length := by
  obtain ⟨ot, cs0, cs, harm, ht, hot, hsplit, hharm, hcons', hht, hst⟩ := runSequence_ok hrun
  obtain ⟨horig, hpos0, hrec⟩ := splitToCodons_ok hsplit hlen
  have haa := split_aa_fun hsplit
  rw [harmonize_eq_direct haa] at hharm
  have hfor : List.Forall₂ (fun r0 r => resolveRecord (mkCfg a) uo uh r0 = some r) cs0 cs :=
    traverseOpt_forall₂ _ hharm
  have hQ : List.Forall₂ (fun r0 r =>
      r.position = r0.position ∧ ∃ c, r.new = some c ∧ c.length = 3) cs0 cs := by
    refine forall₂_imp_mem hfor ?_
    intro r0 _ r hres
    obtain ⟨res, hcore, hr⟩ := resolveRecord_some hres
    obtain ⟨rowH, q, hrowH, hmem⟩ := resolveCore_new_mem hcore
    have hlen3 : res.new.length = 3 := hwf _ (lookupRow_mem hrowH) _ hmem
    subst hr
    exact ⟨rfl, res.new, rfl, hlen3⟩
  have hlength : cs0.length = cs.length := hQ.length_eq
  have hposmap : cs.map (fun r => r.position) = List.range' 1 cs.length := by
    have hmap : cs.map (fun r => r.position) = cs0.map (fun r => r.position) :=
      map_eq_of_forall₂ (forall₂_imp_mem hQ (fun x _ y hy => hy.1))
    rw [hmap, hpos0, ← hlength]
  obtain ⟨L, htrav, hflat⟩ := construct_ok hcons'
  have hLmap : L = cs.map (fun r => r.new.getD []) :=
    forall₂_some_eq_map _ [] (traverseOpt_forall₂ _ htrav)
  have hL3 : ∀ x ∈ L, x.length = 3 := by
    intro x hx
    rw [hLmap] at hx
    obtain ⟨r, hr, hrx⟩ := List.mem_map.mp hx
    obtain ⟨r0, -, -, c, hnew, h3⟩ := forall₂_mem_right hQ r hr
    rw [← hrx, hnew]
    exact h3
  have hharmlen : harm.length = s.length := by
    rw [hflat, flatten_length_of_len3 hL3, hLmap, List.length_map, ← hlength]
    rw [← chunks3_length hlen]
    have hc : cs0.length = (chunks3 s).length := by
      rw [← horig, List.length_map]
    rw [hc]
  subst hst
  exact ⟨hposmap, by rw [hflat, hLmap], hharmlen⟩

/-- Claim C1: for every resolved codon dictionary of a completed harmonization
run over a host usage table that is consistent with the host genetic code,
the replacement triplet translates under the host table to the same amino
acid that the origin table assigns to the original triplet, and
consequently `verify_harmonized_sequence` returns `True`. -/
theorem charm_c1_resolved_codons_preserve_amino_acid {fuel : Nat} {a : InitArgs}
    {oT hT : TransTable} {uo uh : UsageTable} {s : List Char} {st : SeqState}
    (hrun : runSequence fuel a oT hT uo uh s = some (.ok st))
    (hcons : HostConsistent hT uh) (hwf : Wf3 uh) (hlen : s.length % 3 = 0) :
    (∀ r ∈ st.codons, ∃ c aCh, r.new = some c ∧
      hT.toAA c = some aCh ∧ oT.toAA r.original = some aCh) ∧
    verifyHarmonizedSequence st = true := by
  obtain ⟨hA, -, -, -, hver⟩ := pipeline_facts hrun hcons hwf hlen
  refine ⟨?_, hver⟩
  intro r hr
  obtain ⟨c, aCh, hnew, -, hhost, horigin, -⟩ := hA r hr
  exact ⟨c, aCh, hnew, hhost, horigin⟩

/-- Witness for C1: a concrete three-codon run (`ATGTGCTAA`) on the standard
code fragment, evaluated to its final state. -/
theorem charm_c1_witness :
    (∀ r ∈ stStd.codons, ∃ c aCh, r.new = some c ∧
      stdT.toAA c = some aCh ∧ stdT.toAA r.original = some aCh) ∧
    verifyHarmonizedSequence stStd = true :=
  @charm_c1_resolved_codons_preserve_amino_acid 2 argsStd stdT stdT uStd uStd
    ['A', 'T', 'G', 'T', 'G', 'C', 'T', 'A', 'A'] stStd
    (by with_unfolding_all decide) (by decide) (by decide) (by decide)

/-- Counterexample for C2.  In `LibCharm/Sequence/__init__.py` the
usage-difference test is vacuous (`add` is set on both branches), so a
candidate with `df_new ≥ df` and a non-zero usage is admitted: with
`origin_f = target_f = 1/2` (so `df = 0`), the alternative `CTT` with
usage `3/10` enters `codon_substitutions` although `1/5 ≥ 0` and
`3/10 ≠ 0`.  In the older `libcharm.py` the extra test is
`target_f == 0` (the host usage of the original codon), not
`fAlt == 0`: with `target_f = 0` the candidate `CTT` with usage `9/10`
is admitted although its `df_new = 7/10 ≥ df = 1/5` and `9/10 ≠ 0`. -/
theorem charm_c2_counterexample :
    ((['C', 'T', 'T'], 1/5, 3/10) ∈
        (scanRow { lower_threshold := 1/10, strong_stop := true, lower_alternative := true,
                   use_replacement_table := true } ['L'] (1/2) 0
          [(['C', 'T', 'G'], 1/2), (['C', 'T', 'T'], 3/10)]).1 ∧
      ¬((1/5 : ℚ) < 0 ∨ (3/10 : ℚ) = 0)) ∧
    ((['C', 'T', 'T'], 7/10) ∈
        (scanRowLib true (1/10) (1/5) 0 (1/5) ['L'] ['C', 'T', 'G']
          [(['C', 'T', 'G'], 0), (['C', 'T', 'T'], 9/10)]).1 ∧
      ¬((7/10 : ℚ) < 1/5 ∨ (9/10 : ℚ) = 0)) := by
  with_unfolding_all decide

/-- Claim C2, amended: for a non-stop codon the candidate set admits a host
codon exactly when it survives the threshold filter — reject `c` when
`fAlt < lowerThreshold < originF` — and the usage-difference condition
plays no role, because the source sets `add = True` on both branches of
`if df_new < df`. -/
theorem charm_c2_admission_amended (cfg : Config) (aa : AminoKey) (oF df : ℚ)
    (row : UsageRow) (c : Codon) (d f : ℚ)
    (hstop : ¬(aa = ['*'] ∧ cfg.strong_stop = true)) :
    (c, d, f) ∈ (scanRow cfg aa oF df row).1 ↔
      (c, f) ∈ row ∧ d = absQ (oF - f) ∧
        ¬(f < cfg.lower_threshold ∧ cfg.lower_threshold < oF) := by
  rw [scanRow_nonstop hstop]
  exact @mem_candsOf cfg.lower_threshold oF row (c, d, f)

/-- Witness for C2 (amended): the admission rule evaluated on the concrete
two-codon leucine row. -/
theorem charm_c2_admission_amended_witness :
    (['C', 'T', 'T'], 1/5, 3/10) ∈
        (scanRow { lower_threshold := 1/10, strong_stop := true, lower_alternative := true,
                   use_replacement_table := true } ['L'] (1/2) 0
          [(['C', 'T', 'G'], 1/2), (['C', 'T', 'T'], 3/10)]).1 ↔
      (['C', 'T', 'T'], (3/10 : ℚ)) ∈
          [(['C', 'T', 'G'], (1/2 : ℚ)), (['C', 'T', 'T'], 3/10)] ∧
        (1/5 : ℚ) = absQ (1/2 - 3/10) ∧ ¬((3/10 : ℚ) < 1/10 ∧ (1/10 : ℚ) < 1/2) :=
  charm_c2_admission_amended _ _ _ _ _ _ _ _ (by decide)

/-- Counterexample for C3.  With `lower_alternative = False` (the
`preferLowerUsageOnTie` flag unset) and the leucine candidates
`CTT (0.4)`, `CTC (0.4)`, `CTA (0.6)` all tied at `df_new = 1/10`, the
code keeps index 0 of the stable sort — `CTT` with usage `2/5` — because
the first two sorted entries share the same usage, even though the
maximal-usage member of the tie is `CTA` with `3/5`. -/
theorem charm_c3_counterexample :
    resolveCore { lower_threshold := 1/10, strong_stop := true, lower_alternative := false,
                  use_replacement_table := true }
        [(['L'], [(['C', 'T', 'G'], 1/2)])]
        [(['L'], [(['C', 'T', 'G'], 1/50), (['C', 'T', 'T'], 2/5), (['C', 'T', 'C'], 2/5),
                  (['C', 'T', 'A'], 3/5)])]
        ['L'] ['C', 'T', 'G'] =
      some { origin_f := 1/2, target_f := 2/5, initial_df := 12/25, final_df := 1/10,
             new := ['C', 'T', 'T'] } ∧
    (['C', 'T', 'A'], 1/10, 3/5) ∈
      (scanRow { lower_threshold := 1/10, strong_stop := true, lower_alternative := false,
                 use_replacement_table := true } ['L'] (1/2) (12/25)
        [(['C', 'T', 'G'], 1/50), (['C', 'T', 'T'], 2/5), (['C', 'T', 'C'], 2/5),
         (['C', 'T', 'A'], 3/5)]).1 ∧
    (2/5 : ℚ) < 3/5 := by
  with_unfolding_all decide

/-- Claim C3, amended: when the candidate set is non-empty the selected
substitution is a candidate of minimum `df_new`; when the
`lower_alternative` flag is set it is moreover one of minimum
`f_target_new` among that tie.  When the flag is unset the code moves to
the second entry of the stable sort only when the first two entries tie
on `df_new` with different usages, which need not be the maximal-usage
member of the tie. -/
theorem charm_c3_selection_amended {cfg : Config} {uo uh : UsageTable}
    {aa : AminoKey} {orig : Codon} {rowO rowH : UsageRow} {oF tF : ℚ} {res : Resolved}
    (h1 : lookupRow uo aa = some rowO) (h2 : lookupRow uh aa = some rowH)
    (h3 : lookupF rowO orig = some oF) (h4 : lookupF rowH orig = some tF)
    (hne : (scanRow cfg aa oF (absQ (oF - tF)) rowH).1 ≠ [])
    (hres : resolveCore cfg uo uh aa orig = some res) :
    ∃ t ∈ (scanRow cfg aa oF (absQ (oF - tF)) rowH).1,
      res.new = t.1 ∧ res.final_df = t.2.1 ∧ res.target_f = t.2.2 ∧
      (∀ u ∈ (scanRow cfg aa oF (absQ (oF - tF)) rowH).1, t.2.1 ≤ u.2.1) ∧
      (cfg.lower_alternative = true →
        ∀ u ∈ (scanRow cfg aa oF (absQ (oF - tF)) rowH).1, u.2.1 = t.2.1 → t.2.2 ≤ u.2.2) := by
  rw [resolveCore_eq_sel h1 h2 h3 h4] at hres
  exact (resolveSel_cand hne hres).2.2

/-- Witness for C3 (amended): the leucine selection with the flag set picks
`CTT`, a minimum-difference, minimum-usage candidate. -/
theorem charm_c3_selection_amended_witness :
    ∃ t ∈ (scanRow { lower_threshold := 1/10, strong_stop := true, lower_alternative := true,
                     use_replacement_table := true } ['L'] (1/2) (absQ (1/2 - 1/50))
        [(['C', 'T', 'G'], 1/50), (['C', 'T', 'T'], 2/5), (['C', 'T', 'C'], 2/5),
         (['C', 'T', 'A'], 3/5)]).1,
      (Resolved.mk (1/2) (2/5) (12/25) (1/10) ['C', 'T', 'T']).new = t.1 ∧
      (Resolved.mk (1/2) (2/5) (12/25) (1/10) ['C', 'T', 'T']).final_df = t.2.1 ∧
      (Resolved.mk (1/2) (2/5) (12/25) (1/10) ['C', 'T', 'T']).target_f = t.2.2 ∧
      (∀ u ∈ (scanRow { lower_threshold := 1/10, strong_stop := true,
                        lower_alternative := true, use_replacement_table := true }
          ['L'] (1/2) (absQ (1/2 - 1/50))
          [(['C', 'T', 'G'], 1/50), (['C', 'T', 'T'], 2/5), (['C', 'T', 'C'], 2/5),
           (['C', 'T', 'A'], 3/5)]).1, t.2.1 ≤ u.2.1) ∧
      (({ lower_threshold := 1/10, strong_stop := true, lower_alternative := true,
          use_replacement_table := true } : Config).lower_alternative = true →
        ∀ u ∈ (scanRow { lower_threshold := 1/10, strong_stop := true,
                         lower_alternative := true, use_replacement_table := true }
            ['L'] (1/2) (absQ (1/2 - 1/50))
            [(['C', 'T', 'G'], 1/50), (['C', 'T', 'T'], 2/5), (['C', 'T', 'C'], 2/5),
             (['C', 'T', 'A'], 3/5)]).1, u.2.1 = t.2.1 → t.2.2 ≤ u.2.2) :=
  @charm_c3_selection_amended
    { lower_threshold := 1/10, strong_stop := true, lower_alternative := true,
      use_replacement_table := true }
    [(['L'], [(['C', 'T', 'G'], 1/2)])]
    [(['L'], [(['C', 'T', 'G'], 1/50), (['C', 'T', 'T'], 2/5), (['C', 'T', 'C'], 2/5),
              (['C', 'T', 'A'], 3/5)])]
    ['L'] ['C', 'T', 'G']
    [(['C', 'T', 'G'], 1/2)]
    [(['C', 'T', 'G'], 1/50), (['C', 'T', 'T'], 2/5), (['C', 'T', 'C'], 2/5),
     (['C', 'T', 'A'], 3/5)]
    (1/2) (1/50)
    (Resolved.mk (1/2) (2/5) (12/25) (1/10) ['C', 'T', 'T'])
    (by with_unfolding_all decide) (by with_unfolding_all decide)
    (by with_unfolding_all decide) (by with_unfolding_all decide)
    (by with_unfolding_all decide) (by with_unfolding_all decide)

/-- Counterexample for C4.  Two host profiles listing the same stop-codon
usage pairs `TAA = 1/2, TGA = 1/2` in different dictionary orders make
the strong-stop rule pick different codons (`TGA` in the first, `TAA` in
the second): the tie among maximal-usage stop codons is broken by the
profile's iteration order, not by any lexical order of the codon
strings. -/
theorem charm_c4_counterexample :
    (resolveCore { lower_threshold := 1/10, strong_stop := true, lower_alternative := true,
                   use_replacement_table := true }
        [(['*'], [(['T', 'A', 'A'], 3/5)])]
        [(['*'], [(['T', 'A', 'A'], 1/2), (['T', 'G', 'A'], 1/2)])]
        ['*'] ['T', 'A', 'A']).map (fun r => r.new) = some ['T', 'G', 'A'] ∧
    (resolveCore { lower_threshold := 1/10, strong_stop := true, lower_alternative := true,
                   use_replacement_table := true }
        [(['*'], [(['T', 'A', 'A'], 3/5)])]
        [(['*'], [(['T', 'G', 'A'], 1/2), (['T', 'A', 'A'], 1/2)])]
        ['*'] ['T', 'A', 'A']).map (fun r => r.new) = some ['T', 'A', 'A'] ∧
    (['T', 'G', 'A'] : Codon) ≠ ['T', 'A', 'A'] := by
  with_unfolding_all decide

/-- Claim C4, amended: for a stop codon under the `strong_stop` policy the
selected replacement is a host stop codon of maximal usage value, its
`final_df` is that codon's usage difference (usage-difference
minimization is ignored); ties among maximal-usage stop codons are
broken by the host profile's iteration order (the last maximal entry of
the stable usage sort), not by lexical order. -/
theorem charm_c4_strong_stop_amended {cfg : Config} {uo uh : UsageTable}
    {orig : Codon} {rowO rowH : UsageRow} {oF tF : ℚ} {res : Resolved}
    (hstrong : cfg.strong_stop = true)
    (h1 : lookupRow uo ['*'] = some rowO) (h2 : lookupRow uh ['*'] = some rowH)
    (h3 : lookupF rowO orig = some oF) (h4 : lookupF rowH orig = some tF)
    (hres : resolveCore cfg uo uh ['*'] orig = some res) :
    ∃ t ∈ stopsOf oF rowH,
      res.new = t.1 ∧ res.final_df = t.2.1 ∧ res.target_f = t.2.2 ∧
      ∀ u ∈ stopsOf oF rowH, u.2.2 ≤ t.2.2 := by
  rw [resolveCore_eq_sel h1 h2 h3 h4] at hres
  exact (resolveSel_stop ⟨rfl, hstrong⟩ hres).2.2

/-- Witness for C4 (amended): the strong-stop selection on the concrete
profile with `TAA = 1/2, TGA = 1/2` lands on a maximal-usage stop codon. -/
theorem charm_c4_strong_stop_amended_witness :
    ∃ t ∈ stopsOf (3/5) [(['T', 'A', 'A'], 1/2), (['T', 'G', 'A'], 1/2)],
      (Resolved.mk (3/5) (1/2) (1/10) (1/10) ['T', 'G', 'A']).new = t.1 ∧
      (Resolved.mk (3/5) (1/2) (1/10) (1/10) ['T', 'G', 'A']).final_df = t.2.1 ∧
      (Resolved.mk (3/5) (1/2) (1/10) (1/10) ['T', 'G', 'A']).target_f = t.2.2 ∧
      ∀ u ∈ stopsOf (3/5) [(['T', 'A', 'A'], 1/2), (['T', 'G', 'A'], 1/2)], u.2.2 ≤ t.2.2 :=
  @charm_c4_strong_stop_amended
    { lower_threshold := 1/10, strong_stop := true, lower_alternative := true,
      use_replacement_table := true }
    [(['*'], [(['T', 'A', 'A'], 3/5)])]
    [(['*'], [(['T', 'A', 'A'], 1/2), (['T', 'G', 'A'], 1/2)])]
    ['T', 'A', 'A']
    [(['T', 'A', 'A'], 3/5)]
    [(['T', 'A', 'A'], 1/2), (['T', 'G', 'A'], 1/2)]
    (3/5) (1/2)
    (Resolved.mk (3/5) (1/2) (1/10) (1/10) ['T', 'G', 'A'])
    rfl (by with_unfolding_all decide) (by with_unfolding_all decide)
    (by with_unfolding_all decide) (by with_unfolding_all decide)
    (by with_unfolding_all decide)

/-- Claim C5: with the replacement table enabled, harmonization resolves one
codon dictionary per distinct `original` triplet and copies every field
except `position` to the other occurrences, and this produces exactly the
codon list that per-position resolution produces — provided the recorded
amino acid is a function of the `original` triplet, which the splitter
guarantees for every input sequence. -/
theorem charm_c5_memo_equals_direct (cfg : Config) (uo uh : UsageTable)
    (codons : List CodonRecord)
    (_hflag : cfg.use_replacement_table = true)
    (haa : ∀ r1 ∈ codons, ∀ r2 ∈ codons, r1.original = r2.original → r1.aa = r2.aa) :
    harmonizeCodons cfg uo uh codons = sortReplacementCodons cfg uo uh codons :=
  harmonize_eq_direct haa

/-- Witness for C5: a two-occurrence sequence (`ATG` twice) harmonized through
the replacement table equals its per-position resolution. -/
theorem charm_c5_memo_equals_direct_witness :
    harmonizeCodons (mkCfg argsStd) uStd uStd
        [{ position := 1, original := ['A', 'T', 'G'], new := none, origin_f := none,
           target_f := none, initial_df := none, final_df := none, aa := ['M'] },
         { position := 2, original := ['A', 'T', 'G'], new := none, origin_f := none,
           target_f := none, initial_df := none, final_df := none, aa := ['M'] }] =
      sortReplacementCodons (mkCfg argsStd) uStd uStd
        [{ position := 1, original := ['A', 'T', 'G'], new := none, origin_f := none,
           target_f := none, initial_df := none, final_df := none, aa := ['M'] },
         { position := 2, original := ['A', 'T', 'G'], new := none, origin_f := none,
           target_f := none, initial_df := none, final_df := none, aa := ['M'] }] :=
  charm_c5_memo_equals_direct _ _ _ _ (by decide) (by decide)

/-- Counterexample for C6.  Origin leucine usage `CTG = 3/10`, host usage
`CTG = 1/20, CTT = 9/10, CTC = 1/20`, threshold `1/10`: the original codon
and `CTC` are threshold-rejected, `CTT` is admitted by the vacuous
usage-difference test, and the resolved dictionary has
`final_df = 3/5 > initial_df = 1/4` although `replacement ≠ original`. -/
theorem charm_c6_counterexample :
    resolveCore { lower_threshold := 1/10, strong_stop := true, lower_alternative := true,
                  use_replacement_table := true }
        [(['L'], [(['C', 'T', 'G'], 3/10)])]
        [(['L'], [(['C', 'T', 'G'], 1/20), (['C', 'T', 'T'], 9/10), (['C', 'T', 'C'], 1/20)])]
        ['L'] ['C', 'T', 'G'] =
      some { origin_f := 3/10, target_f := 9/10, initial_df := 1/4, final_df := 3/5,
             new := ['C', 'T', 'T'] } ∧
    (['C', 'T', 'T'] : Codon) ≠ ['C', 'T', 'G'] ∧ (1/4 : ℚ) < 3/5 := by
  with_unfolding_all decide

/-- Claim C6, amended: `final_df = initial_df` whenever the selected
replacement equals the original triplet; and `final_df ≤ initial_df` holds
whenever the codon is not a strong-stop case and the original codon itself
survives the threshold filter — when the original is threshold-rejected
(`target_f < lowerThreshold < origin_f`), the vacuously admitted
alternatives can make `final_df` exceed `initial_df`. -/
theorem charm_c6_final_diff_amended {cfg : Config} {uo uh : UsageTable}
    {aa : AminoKey} {orig : Codon} {rowO rowH : UsageRow} {oF tF : ℚ} {res : Resolved}
    (h1 : lookupRow uo aa = some rowO) (h2 : lookupRow uh aa = some rowH)
    (h3 : lookupF rowO orig = some oF) (h4 : lookupF rowH orig = some tF)
    (hnd : (rowH.map Prod.fst).Nodup)
    (hres : resolveCore cfg uo uh aa orig = some res) :
    (res.new = orig → res.final_df = res.initial_df) ∧
    (¬(aa = ['*'] ∧ cfg.strong_stop = true) →
      ¬(tF < cfg.lower_threshold ∧ cfg.lower_threshold < oF) →
      res.final_df ≤ res.initial_df) := by
  rw [resolveCore_eq_sel h1 h2 h3 h4] at hres
  by_cases hne : (scanRow cfg aa oF (absQ (oF - tF)) rowH).1 ≠ []
  · obtain ⟨hoF, hdf, t, htm, hnew, hfd, htf, hmin, -⟩ := resolveSel_cand hne hres
    have hstop : ¬(aa = ['*'] ∧ cfg.strong_stop = true) := by
      intro hstop
      rw [scanRow_stop hstop] at hne
      exact hne rfl
    constructor
    · intro horig2
      have ht1 : t.1 = orig := hnew.symm.trans horig2
      rw [scanRow_nonstop hstop] at htm
      obtain ⟨hmem, hdeq, -⟩ := mem_candsOf.mp htm
      have ht22 : t.2.2 = tF := lookupF_of_nodup hnd h4 (ht1 ▸ hmem)
      rw [hfd, hdf, hdeq, ht22]
    · intro _ hthr
      have horigmem : (orig, absQ (oF - tF), tF) ∈
          (scanRow cfg aa oF (absQ (oF - tF)) rowH).1 := by
        rw [scanRow_nonstop hstop]
        exact mem_candsOf.mpr ⟨lookupF_mem h4, rfl, hthr⟩
      have hle := hmin _ horigmem
      rw [hfd, hdf]
      exact hle
  · push_neg at hne
    by_cases hstop : aa = ['*'] ∧ cfg.strong_stop = true
    · obtain ⟨hoF, hdf, t, htm, hnew, hfd, htf, hmax⟩ := resolveSel_stop hstop hres
      constructor
      · intro horig2
        have ht1 : t.1 = orig := hnew.symm.trans horig2
        obtain ⟨hmem, hdeq⟩ := mem_stopsOf.mp htm
        have ht22 : t.2.2 = tF := lookupF_of_nodup hnd h4 (ht1 ▸ hmem)
        rw [hfd, hdf, hdeq, ht22]
      · intro hstop2 _
        exact absurd hstop hstop2
    · have hfb := resolveSel_fallback hstop hne hres
      subst hfb
      exact ⟨fun _ => rfl, fun _ _ => le_refl _⟩

/-- Witness for C6 (amended), exercising both conclusions.  First instance:
methionine with identical origin and host usage — the code keeps `ATG`, so
the replacement equals the original and `final_df = initial_df` is the
equality conclusion at `0 = 0`.  Second instance: leucine with origin
`CTG = 1/2` and host `CTG = 2/5, CTT = 1/2` — the original passes the
threshold filter, the code replaces `CTG` by `CTT`, and the inequality
conclusion gives the strict decrease `final_df = 0 ≤ initial_df = 1/10`. -/
theorem charm_c6_final_diff_amended_witness :
    (((Resolved.mk 1 1 0 0 ['A', 'T', 'G']).new = ['A', 'T', 'G'] →
        (Resolved.mk 1 1 0 0 ['A', 'T', 'G']).final_df =
          (Resolved.mk 1 1 0 0 ['A', 'T', 'G']).initial_df) ∧
      (¬((['M'] : AminoKey) = ['*'] ∧
          ({ lower_threshold := 1/10, strong_stop := true, lower_alternative := true,
             use_replacement_table := true } : Config).strong_stop = true) →
        ¬((1 : ℚ) < 1/10 ∧ (1/10 : ℚ) < 1) →
        (Resolved.mk 1 1 0 0 ['A', 'T', 'G']).final_df ≤
          (Resolved.mk 1 1 0 0 ['A', 'T', 'G']).initial_df)) ∧
    (((Resolved.mk (1/2) (1/2) (1/10) 0 ['C', 'T', 'T']).new = ['C', 'T', 'G'] →
        (Resolved.mk (1/2) (1/2) (1/10) 0 ['C', 'T', 'T']).final_df =
          (Resolved.mk (1/2) (1/2) (1/10) 0 ['C', 'T', 'T']).initial_df) ∧
      (¬((['L'] : AminoKey) = ['*'] ∧
          ({ lower_threshold := 1/10, strong_stop := true, lower_alternative := true,
             use_replacement_table := true } : Config).strong_stop = true) →
        ¬((2/5 : ℚ) < 1/10 ∧ (1/10 : ℚ) < 1/2) →
        (Resolved.mk (1/2) (1/2) (1/10) 0 ['C', 'T', 'T']).final_df ≤
          (Resolved.mk (1/2) (1/2) (1/10) 0 ['C', 'T', 'T']).initial_df)) :=
  ⟨@charm_c6_final_diff_amended
      { lower_threshold := 1/10, strong_stop := true, lower_alternative := true,
        use_replacement_table := true }
      [(['M'], [(['A', 'T', 'G'], 1)])]
      [(['M'], [(['A', 'T', 'G'], 1)])]
      ['M'] ['A', 'T', 'G']
      [(['A', 'T', 'G'], 1)] [(['A', 'T', 'G'], 1)]
      1 1
      (Resolved.mk 1 1 0 0 ['A', 'T', 'G'])
      (by with_unfolding_all decide) (by with_unfolding_all decide)
      (by with_unfolding_all decide) (by with_unfolding_all decide)
      (by with_unfolding_all decide) (by with_unfolding_all decide),
   @charm_c6_final_diff_amended
      { lower_threshold := 1/10, strong_stop := true, lower_alternative := true,
        use_replacement_table := true }
      [(['L'], [(['C', 'T', 'G'], 1/2)])]
      [(['L'], [(['C', 'T', 'G'], 2/5), (['C', 'T', 'T'], 1/2)])]
      ['L'] ['C', 'T', 'G']
      [(['C', 'T', 'G'], 1/2)]
      [(['C', 'T', 'G'], 2/5), (['C', 'T', 'T'], 1/2)]
      (1/2) (2/5)
      (Resolved.mk (1/2) (1/2) (1/10) 0 ['C', 'T', 'T'])
      (by with_unfolding_all decide) (by with_unfolding_all decide)
      (by with_unfolding_all decide) (by with_unfolding_all decide)
      (by with_unfolding_all decide) (by with_unfolding_all decide)⟩

/-- Claim C7, code evaluation: on the length-4 input `ATGA` the splitter
raises nothing — it returns a record list whose last entry is the bare
trailing chunk `A` with an empty amino acid, silently passing the partial
codon through; no `InvalidSequenceError` (and no such exception class)
exists in the code. -/
theorem charm_c7_partial_codon_passes_through :
    splitToCodons stdT ['A', 'T', 'G', 'A'] =
      .ok [{ position := 1, original := ['A', 'T', 'G'], new := none, origin_f := none,
             target_f := none, initial_df := none, final_df := none, aa := ['M'] },
           { position := 2, original := ['A'], new := none, origin_f := none,
             target_f := none, initial_df := none, final_df := none, aa := [] }] ∧
    (['A', 'T', 'G', 'A'] : List Char).length % 3 ≠ 0 := by
  decide

/-- Counterexample for C8.  With an attempt that always raises
`TranslationError`, a run with fuel 5 performs 5 attempts — the recovery
fires on every failure, not at most once — and no fatal outcome is ever
produced: at any fuel the call is still retrying (modelled as `none`). -/
theorem charm_c8_counterexample :
    translateAttempts badAtt 5 true false = 5 ∧
    translateSequence badAtt 10 true false = none := by
  decide

/-- Claim C8, amended: on a `TranslationError` the call retries itself with
`cds=False, to_stop=True`; if the retry succeeds its value is returned
(one recovery), but if the retry raises again the call keeps repeating
itself with unchanged arguments and never terminates — the failure is not
made fatal after a single retry. -/
theorem charm_c8_retry_amended (att : Bool → Bool → Option (List Char))
    (fuel : Nat) (c t : Bool) (v : List Char) :
    (att c t = none → att false true = some v → 2 ≤ fuel →
      translateSequence att fuel c t = some v) ∧
    (att c t = none → att false true = none →
      translateSequence att fuel c t = none) := by
  have part2 : ∀ (n : Nat) (c' t' : Bool), att c' t' = none → att false true = none →
      translateSequence att n c' t' = none := by
    intro n
    induction n with
    | zero => intro c' t' _ _; rfl
    | succ m ih =>
      intro c' t' h1 h2
      unfold translateSequence
      rw [h1]
      exact ih false true h2 h2
  refine ⟨?_, part2 fuel c t⟩
  intro h1 h2 hfuel
  match fuel, hfuel with
  | n + 2, _ =>
    unfold translateSequence
    rw [h1]
    unfold translateSequence
    rw [h2]

/-- Witness for C8 (amended): with an attempt failing only under `cds`, one
retry recovers; with an always-failing attempt the call never returns. -/
theorem charm_c8_retry_amended_witness :
    translateSequence okAtt 2 true false = some ['M'] ∧
    translateSequence badAtt 7 true false = none :=
  ⟨(charm_c8_retry_amended okAtt 2 true false ['M']).1 rfl rfl (by decide),
   (charm_c8_retry_amended badAtt 7 true false []).2 rfl rfl⟩

/-- Claim C9: on a completed run over a triplet-wellformed host table and an
input of length a multiple of three, the harmonized sequence is the
concatenation of the `new` triplets in list order, the record positions
are exactly `1, 2, …, n` (no reordering, no gaps), and the output length
equals the input length. -/
theorem charm_c9_reconstruction {fuel : Nat} {a : InitArgs} {oT hT : TransTable}
    {uo uh : UsageTable} {s : List Char} {st : SeqState}
    (hrun : runSequence fuel a oT hT uo uh s = some (.ok st))
    (hwf : Wf3 uh) (hlen : s.length % 3 = 0) :
    st.harmonized_sequence = (st.codons.map (fun r => r.new.getD [])).flatten ∧
    st.codons.map (fun r => r.position) = List.range' 1 st.codons.length ∧
    st.harmonized_sequence.length = s.length := by
  obtain ⟨hpos, hflat, hlen'⟩ := pipeline_struct hrun hwf hlen
  exact ⟨hflat, hpos, hlen'⟩

/-- Witness for C9: the concrete `ATGTGCTAA` run reconstructs its
nine-nucleotide output in position order. -/
theorem charm_c9_reconstruction_witness :
    stStd.harmonized_sequence = (stStd.codons.map (fun r => r.new.getD [])).flatten ∧
    stStd.codons.map (fun r => r.position) = List.range' 1 stStd.codons.length ∧
    stStd.harmonized_sequence.length =
      (['A', 'T', 'G', 'T', 'G', 'C', 'T', 'A', 'A'] : List Char).length :=
  @charm_c9_reconstruction 2 argsStd stdT stdT uStd uStd
    ['A', 'T', 'G', 'T', 'G', 'C', 'T', 'A', 'A'] stStd
    (by with_unfolding_all decide) (by decide) (by decide)

/-- Claim C10: constructing a `Sequence` with an origin or host translation
table identifier above 15 raises `ValueError` — for every fuel, sequence
and usage table, even ones on which any later stage would fail or
diverge, so the guard fires before any translation, splitting or
harmonization. -/
theorem charm_c10_table_guard (fuel : Nat) (a : InitArgs) (oT hT : TransTable)
    (uo uh : UsageTable) (s : List Char)
    (h : 15 < a.translation_table_origin ∨ 15 < a.translation_table_host) :
    runSequence fuel a oT hT uo uh s = some (.err .valueError) := by
  unfold runSequence
  dsimp only
  rw [if_pos h]

/-- Witness for C10: table 16 with zero fuel and empty tables still yields
`ValueError` immediately. -/
theorem charm_c10_table_guard_witness :
    runSequence 0
      { translation_table_origin := 16, translation_table_host := 1, use_frequency := false,
        lower_threshold := none, strong_stop := true, lower_alternative := true,
        use_replacement_table := true }
      stdT stdT [] [] ['X'] = some (.err .valueError) :=
  charm_c10_table_guard 0
    { translation_table_origin := 16, translation_table_host := 1, use_frequency := false,
      lower_threshold := none, strong_stop := true, lower_alternative := true,
      use_replacement_table := true }
    stdT stdT [] [] ['X'] (Or.inl (by decide))

end Charm
